import Mathlib

/-!
# transmission-restore: a verification development

A shallow embedding of `transmission-restore.go` and proofs of the properties
its specification states.

Conventions of the embedding.

* A Go `string` is a Lean `String`; a Go `[]byte` is a `List Byte`.
* A Go `error` is `Option GoError` (`none` is `nil`).  `fmt.Errorf` is kept
  symbolic: the format string, the arguments, and the error wrapped by `%w`.
* A call of the program may also panic, and nothing in the program recovers:
  the way a function of the program ends is an `Option Failure`, `none` for a
  `nil` error, and a panic passes through every caller unchanged.
* Everything the program does to the outside world (listing a directory,
  reading a file, logging, calling the Transmission client, sleeping) is
  appended to a trace of `Event`s, in program order.  A function of the program
  takes the trace so far and returns the trace after it.
* The outside world is an `Env`: the file system, the bencode decoder and
  the Transmission client, whose answer may depend on the whole trace so far.
-/

namespace TransmissionRestore

/-! ## Data model -/

deriving instance DecidableEq for Except


/-- One byte of a `[]byte`. -/
abbrev Byte := Fin 256

/-- A Go `error` value that is not `nil`. -/
inductive GoError where
  /-- An error made outside this program (operating system, a library). -/
  | external (msg : String)
  /-- The value of `fmt.Errorf(format, args...)` with no `%w` verb. -/
  | errorf (format : String) (args : List String)
  /-- The value of `fmt.Errorf(format, args..., err)` whose last verb is `%w`:
  it wraps `err`. -/
  | wrapf (format : String) (args : List String) (err : GoError)
  deriving DecidableEq, Repr

/-- The error an error wraps (`errors.Unwrap`). -/
def GoError.unwrap : GoError → Option GoError
  | .wrapf _ _ err => some err
  | _ => none

/-- An argument of a `log.Printf` or `log.Fatalf` call. -/
inductive Arg where
  | str (s : String)
  | int (n : Int)
  | err (e : GoError)
  deriving DecidableEq, Repr

/-- How a call can fail: it returns an error that is not `nil`, or it panics.
The program has no `recover`, so a panic unwinds every caller and ends the
process; the panic value is not modelled. -/
inductive Failure where
  | error (err : GoError)
  | panic
  deriving DecidableEq, Repr

/-- The type `mapping` of the source: `struct { local, remote string }`
(`local` is a reserved word of Lean, hence `local_`). -/
structure mapping where
  local_ : String
  remote : String
  deriving DecidableEq, Repr

/-- The type `mappings` of the source: `[]mapping`. -/
abbrev mappings := List mapping

/-! ## `strings.SplitN` and `mappings.Set` -/

namespace strings

/-- The text before the first occurrence of the one-byte separator `sep` and
the text after it (`strings.Index` followed by the two slicings of
`genSplit`); `none` when `sep` does not occur. -/
def cut (sep : Char) : List Char → Option (List Char × List Char)
  | [] => none
  | c :: cs =>
    if c = sep then some ([], cs)
    else match cut sep cs with
      | none => none
      | some (before, after) => some (c :: before, after)

/-- The function `genSplit(s, sep, 0, n)` behind `strings.SplitN(s, sep, n)`
for a one-byte separator and `n ≥ 0`: at most `n` pieces, the last one the
unsplit remainder. -/
def genSplit (sep : Char) : Nat → List Char → List (List Char)
  | 0, _ => []
  | 1, s => [s]
  | n + 2, s =>
    match cut sep s with
    | none => [s]
    | some (before, after) => before :: genSplit sep (n + 1) after

/-- The call `strings.SplitN(s, sep, n)` for a one-byte separator. -/
def SplitN (s : String) (sep : Char) (n : Nat) : List String :=
  (genSplit sep n s.data).map String.mk

end strings

/-- The method `(m *mappings) Set(value string) error`: the returned error and
the value of `*m` afterwards. -/
def mappings.Set (m : mappings) (value : String) : Option GoError × mappings :=
  match strings.SplitN value ';' 2 with
  | [p0, p1] => (none, m ++ [{ local_ := p0, remote := p1 }])
  | _ => (some (GoError.errorf "invalid mapping %q" [value]), m)

/-! ## `filepath.Join` (Unix) -/

namespace filepath

/-- The elements of a path between its separators `/` (empty elements kept). -/
def elements : List Char → List (List Char)
  | [] => [[]]
  | c :: cs =>
    if c = '/' then [] :: elements cs
    else match elements cs with
      | [] => [[c]]
      | e :: es => (c :: e) :: es

/-- One step of the loop of `filepath.Clean` over a path element.  `out` holds
the elements written so far, last first; `dotdot` counts the leading `..`
elements that cannot be removed (the index `dotdot` of the source, counted in
elements). -/
def cleanStep (rooted : Bool) (st : List (List Char) × Nat) (e : List Char) :
    List (List Char) × Nat :=
  if e = [] then st                         -- empty path element
  else if e = ['.'] then st                 -- . element
  else if e = ['.', '.'] then               -- .. element
    if st.1.length > st.2 then (st.1.tail, st.2)          -- can backtrack
    else if !rooted then (e :: st.1, st.2 + 1)           -- append .. element
    else st
  else (e :: st.1, st.2)                    -- real path element

/-- The function `filepath.Clean(path)` on Unix. -/
def Clean (path : String) : String :=
  if path.data = [] then "."
  else
    let rooted : Bool := path.data.head? = some '/'
    let out := ((elements path.data).foldl (cleanStep rooted) ([], 0)).1.reverse
    let body := List.intercalate ['/'] out
    if rooted then String.mk ('/' :: body)
    else if body = [] then "."
    else String.mk body

/-- The function `filepath.Join(elem...)` on Unix: the elements from the first
non-empty one on, joined by `/` and cleaned; the empty string when every
element is empty. -/
def Join (elem : List String) : String :=
  match elem.dropWhile (fun e => e.data = []) with
  | [] => ""
  | es => Clean (String.mk (List.intercalate ['/'] (es.map String.data)))

/-- The function `filepath.IsAbs(path)` on Unix: the path begins with `/`. -/
def IsAbs (path : String) : Bool :=
  path.data.head? = some '/'

end filepath

/-! ## `base64.StdEncoding` -/

namespace base64

/-- The alphabet `encodeStd` of `encoding/base64`. -/
def encodeStd : List Char :=
  "ABCDEFGHIJKLMNOPQRSTUVWXYZabcdefghijklmnopqrstuvwxyz0123456789+/".data

/-- The character of the alphabet for a six-bit value. -/
def encChar (n : Nat) : Char := encodeStd.getD n 'A'

/-- The six-bit value of a character of the alphabet. -/
def decChar (c : Char) : Option Nat :=
  let i := encodeStd.indexOf c
  if i < 64 then some i else none

/-- The loop of `(*Encoding).Encode` with the standard alphabet and `=`
padding: three bytes give four characters; a remainder of one or two bytes
gives two or three characters and padding. -/
def encode : List Byte → List Char
  | [] => []
  | [b0] =>
    let val := b0.val * 65536
    [encChar (val / 262144 % 64), encChar (val / 4096 % 64), '=', '=']
  | [b0, b1] =>
    let val := b0.val * 65536 + b1.val * 256
    [encChar (val / 262144 % 64), encChar (val / 4096 % 64), encChar (val / 64 % 64), '=']
  | b0 :: b1 :: b2 :: rest =>
    let val := b0.val * 65536 + b1.val * 256 + b2.val
    encChar (val / 262144 % 64) :: encChar (val / 4096 % 64) :: encChar (val / 64 % 64) ::
      encChar (val % 64) :: encode rest

/-- The call `base64.StdEncoding.EncodeToString(src)`. -/
def EncodeToString (src : List Byte) : String := String.mk (encode src)

/-- The byte of a number (its low eight bits). -/
def toByte (n : Nat) : Byte := ⟨n % 256, Nat.mod_lt _ (by decide)⟩

/-- Decoding of padded standard base64 text (RFC 4648, section 4): four
characters give three bytes; padding may only end the text. -/
def decode : List Char → Option (List Byte)
  | [] => some []
  | c0 :: c1 :: c2 :: c3 :: rest =>
    if c3 = '=' then
      if rest = [] then
        if c2 = '=' then
          match decChar c0, decChar c1 with
          | some n0, some n1 => some [toByte (n0 * 4 + n1 / 16)]
          | _, _ => none
        else
          match decChar c0, decChar c1, decChar c2 with
          | some n0, some n1, some n2 =>
            some [toByte (n0 * 4 + n1 / 16), toByte (n1 % 16 * 16 + n2 / 4)]
          | _, _, _ => none
      else none
    else
      match decChar c0, decChar c1, decChar c2, decChar c3, decode rest with
      | some n0, some n1, some n2, some n3, some bs =>
        some (toByte (n0 * 4 + n1 / 16) :: toByte (n1 % 16 * 16 + n2 / 4) ::
          toByte (n2 % 4 * 64 + n3) :: bs)
      | _, _, _, _, _ => none
  | _ => none

/-- The bytes a padded standard base64 string stands for. -/
def DecodeString (s : String) : Option (List Byte) := decode s.data

end base64

/-! ## `time.Duration` -/

namespace time

/-- The value of a 64-bit signed integer after wrap-around. -/
def wrapInt64 (n : Int) : Int := (n + 2 ^ 63) % 2 ^ 64 - 2 ^ 63

/-- The constant `time.Second`, in nanoseconds. -/
def Second : Int := 1000000000

/-- The expression `time.Second * time.Duration(secs)`: an `int64` count of
nanoseconds, computed with wrap-around. -/
def seconds (secs : Int) : Int := wrapInt64 (Second * wrapInt64 secs)

end time

/-! ## The torrent-definition format -/

/-- An element of `info.Info.Files`. -/
structure FileEntry where
  Length : Int
  Path : List String
  deriving DecidableEq, Repr

/-- The anonymous struct of the field `Info` of `info`. -/
structure InfoDict where
  Files : List FileEntry
  Name : String
  PieceLength : Int
  Pieces : String
  Private : Int
  Source : String
  deriving DecidableEq, Repr

/-- The type `info` of the source: what a torrent-definition file is decoded
into. -/
structure info where
  Announce : String
  CreatedBy : String
  CreationDate : Int
  Encoding : String
  Info : InfoDict
  deriving DecidableEq, Repr

namespace bencode

/-- A bencoded value: an integer, a byte string, a list, or a dictionary. -/
inductive BValue where
  | int (n : Int)
  | str (s : List Byte)
  | list (xs : List BValue)
  | dict (kvs : List (List Byte × BValue))

/-- The decimal digits at the head of the input, as a number added to
`acc * 10 ^ (their count)`, and the input after them. -/
def digits (acc : Nat) : List Byte → Nat × List Byte
  | [] => (acc, [])
  | b :: rest =>
    if 48 ≤ b.val ∧ b.val ≤ 57 then digits (acc * 10 + (b.val - 48)) rest
    else (acc, b :: rest)

/-- The integer after `i`: an optional `-`, digits, `e`. -/
def parseInt (input : List Byte) : Option (Int × List Byte) :=
  match input with
  | 45 :: rest =>
    match digits 0 rest with
    | (n, 101 :: rest1) => if rest1.length + 1 < rest.length then some (-(n : Int), rest1) else none
    | _ => none
  | _ =>
    match digits 0 input with
    | (n, 101 :: rest1) => if rest1.length + 1 < input.length then some ((n : Int), rest1) else none
    | _ => none

/-- The byte string `<length>:<bytes>`. -/
def parseStr (input : List Byte) : Option (List Byte × List Byte) :=
  match digits 0 input with
  | (n, 58 :: rest) =>
    if rest.length + 1 < input.length ∧ n ≤ rest.length then some (rest.take n, rest.drop n)
    else none
  | _ => none

mutual

/-- One bencoded value at the head of the input and the input after it;
`fuel` bounds the nesting and the number of items read. -/
def parseValue : Nat → List Byte → Option (BValue × List Byte)
  | 0, _ => none
  | _ + 1, [] => none
  | fuel + 1, b :: rest =>
    if b = 105 then                       -- i
      match parseInt rest with
      | some (n, rest1) => some (BValue.int n, rest1)
      | none => none
    else if b = 108 then                  -- l
      match parseList fuel rest with
      | some (xs, rest1) => some (BValue.list xs, rest1)
      | none => none
    else if b = 100 then                  -- d
      match parseDict fuel rest with
      | some (kvs, rest1) => some (BValue.dict kvs, rest1)
      | none => none
    else
      match parseStr (b :: rest) with
      | some (s, rest1) => some (BValue.str s, rest1)
      | none => none

/-- The items of a list up to its closing `e`. -/
def parseList : Nat → List Byte → Option (List BValue × List Byte)
  | 0, _ => none
  | _ + 1, [] => none
  | fuel + 1, b :: rest =>
    if b = 101 then some ([], rest)       -- e
    else
      match parseValue fuel (b :: rest) with
      | none => none
      | some (x, rest1) =>
        match parseList fuel rest1 with
        | none => none
        | some (xs, rest2) => some (x :: xs, rest2)

/-- The key-value pairs of a dictionary up to its closing `e`. -/
def parseDict : Nat → List Byte → Option (List (List Byte × BValue) × List Byte)
  | 0, _ => none
  | _ + 1, [] => none
  | fuel + 1, b :: rest =>
    if b = 101 then some ([], rest)       -- e
    else
      match parseStr (b :: rest) with
      | none => none
      | some (k, rest1) =>
        match parseValue fuel rest1 with
        | none => none
        | some (v, rest2) =>
          match parseDict fuel rest2 with
          | none => none
          | some (kvs, rest3) => some ((k, v) :: kvs, rest3)

end

/-- The characters of UTF-8 text, read left to right; `fuel` bounds the number
of characters.  A byte that starts no well-formed sequence is given as U+FFFD
(the embedding keeps Go strings as Unicode text). -/
def utf8 : Nat → List Byte → List Char
  | 0, _ => []
  | _ + 1, [] => []
  | fuel + 1, b0 :: rest =>
    if b0.val < 128 then Char.ofNat b0.val :: utf8 fuel rest
    else
      match rest with
      | b1 :: b2 :: b3 :: rest3 =>
        let c2 := (b0.val - 192) * 64 + (b1.val - 128)
        let c3 := (b0.val - 224) * 4096 + (b1.val - 128) * 64 + (b2.val - 128)
        let c4 := (b0.val - 240) * 262144 + (b1.val - 128) * 4096 + (b2.val - 128) * 64 +
          (b3.val - 128)
        if 194 ≤ b0.val ∧ b0.val ≤ 223 ∧ 128 ≤ b1.val ∧ b1.val ≤ 191 then
          Char.ofNat c2 :: utf8 fuel (b2 :: b3 :: rest3)
        else if 224 ≤ b0.val ∧ b0.val ≤ 239 ∧ 128 ≤ b1.val ∧ b1.val ≤ 191 ∧
            128 ≤ b2.val ∧ b2.val ≤ 191 ∧ 2048 ≤ c3 ∧ ¬ (55296 ≤ c3 ∧ c3 ≤ 57343) then
          Char.ofNat c3 :: utf8 fuel (b3 :: rest3)
        else if 240 ≤ b0.val ∧ b0.val ≤ 244 ∧ 128 ≤ b1.val ∧ b1.val ≤ 191 ∧
            128 ≤ b2.val ∧ b2.val ≤ 191 ∧ 128 ≤ b3.val ∧ b3.val ≤ 191 ∧
            65536 ≤ c4 ∧ c4 ≤ 1114111 then
          Char.ofNat c4 :: utf8 fuel rest3
        else Char.ofNat 65533 :: utf8 fuel rest
      | [b1, b2] =>
        let c2 := (b0.val - 192) * 64 + (b1.val - 128)
        let c3 := (b0.val - 224) * 4096 + (b1.val - 128) * 64 + (b2.val - 128)
        if 194 ≤ b0.val ∧ b0.val ≤ 223 ∧ 128 ≤ b1.val ∧ b1.val ≤ 191 then
          Char.ofNat c2 :: utf8 fuel [b2]
        else if 224 ≤ b0.val ∧ b0.val ≤ 239 ∧ 128 ≤ b1.val ∧ b1.val ≤ 191 ∧
            128 ≤ b2.val ∧ b2.val ≤ 191 ∧ 2048 ≤ c3 ∧ ¬ (55296 ≤ c3 ∧ c3 ≤ 57343) then
          [Char.ofNat c3]
        else Char.ofNat 65533 :: utf8 fuel rest
      | [b1] =>
        if 194 ≤ b0.val ∧ b0.val ≤ 223 ∧ 128 ≤ b1.val ∧ b1.val ≤ 191 then
          [Char.ofNat ((b0.val - 192) * 64 + (b1.val - 128))]
        else Char.ofNat 65533 :: utf8 fuel rest
      | [] => [Char.ofNat 65533]

/-- The Go string of a byte string, read as UTF-8 text. -/
def goString (bs : List Byte) : String := String.mk (utf8 bs.length bs)

/-- The bytes of an ASCII string. -/
def bytes (s : String) : List Byte := s.data.map (fun c => base64.toByte c.toNat)

/-- A byte string with its ASCII capital letters made small. -/
def lower (bs : List Byte) : List Byte :=
  bs.map (fun b => if 65 ≤ b.val ∧ b.val ≤ 90 then base64.toByte (b.val + 32) else b)

/-- The key of a dictionary names a struct field when, letter case aside, it
is the field's tag or the field's Go name. -/
def names (key : List Byte) (tag goName : String) : Bool :=
  lower key = lower (bytes tag) || lower key = lower (bytes goName)

/-- The error `bencode.Unmarshal` returns for input it cannot parse.  The text
of the library's error is not modelled: this value stands for the error it
returns, whatever its text. -/
def decodeError : GoError := GoError.external "bencode.Unmarshal"

/-- The key-value pairs of a dictionary assigned one after the other, a later
pair over an earlier one; a panic stops the assignment. -/
def assignAll {α : Type} (step : α → List Byte × BValue → Except Failure α) :
    α → List (List Byte × BValue) → Except Failure α
  | a, [] => Except.ok a
  | a, kv :: rest =>
    match step a kv with
    | Except.error f => Except.error f
    | Except.ok a1 => assignAll step a1 rest

/-- The elements of a list built one after the other into the elements of a
slice; a panic stops the building. -/
def buildAll {β : Type} (build : BValue → Except Failure β) :
    List BValue → Except Failure (List β)
  | [] => Except.ok []
  | x :: rest =>
    match build x with
    | Except.error f => Except.error f
    | Except.ok y =>
      match buildAll build rest with
      | Except.error f => Except.error f
      | Except.ok ys => Except.ok (y :: ys)

/-- A value met where a `string` is expected: a byte string is assigned, an
integer makes the library panic, a list or a dictionary is passed over. -/
def setString (old : String) : BValue → Except Failure String
  | BValue.str s => Except.ok (goString s)
  | BValue.int _ => Except.error Failure.panic
  | _ => Except.ok old

/-- A value met where an `int` is expected: an integer is assigned as a 64-bit
integer, anything else is passed over. -/
def setInt (old : Int) : BValue → Except Failure Int
  | BValue.int n => Except.ok (time.wrapInt64 n)
  | _ => Except.ok old

/-- A value met where a `[]string` is expected: a list gives a new slice, one
element for each item; an integer makes the library panic; a byte string or a
dictionary is passed over. -/
def setStrings (old : List String) : BValue → Except Failure (List String)
  | BValue.list xs => buildAll (setString "") xs
  | BValue.int _ => Except.error Failure.panic
  | _ => Except.ok old

/-- A value met where an element of `Files` is expected. -/
def setFileEntry (old : FileEntry) : BValue → Except Failure FileEntry
  | BValue.dict kvs =>
    assignAll (fun (f : FileEntry) kv =>
      if names kv.1 "length" "Length" then
        match setInt f.Length kv.2 with
        | Except.ok n => Except.ok ⟨n, f.Path⟩
        | Except.error e => Except.error e
      else if names kv.1 "path" "Path" then
        match setStrings f.Path kv.2 with
        | Except.ok ps => Except.ok ⟨f.Length, ps⟩
        | Except.error e => Except.error e
      else Except.ok f) old kvs
  | BValue.int _ => Except.error Failure.panic
  | _ => Except.ok old

/-- A value met where the slice `Files` is expected. -/
def setFiles (old : List FileEntry) : BValue → Except Failure (List FileEntry)
  | BValue.list xs => buildAll (setFileEntry ⟨0, []⟩) xs
  | BValue.int _ => Except.error Failure.panic
  | _ => Except.ok old

/-- The assignment of one key-value pair to the struct of the field `Info`. -/
def assignInfoDict (d : InfoDict) (kv : List Byte × BValue) : Except Failure InfoDict :=
  if names kv.1 "files" "Files" then
    match setFiles d.Files kv.2 with
    | Except.ok x => Except.ok ⟨x, d.Name, d.PieceLength, d.Pieces, d.Private, d.Source⟩
    | Except.error e => Except.error e
  else if names kv.1 "name" "Name" then
    match setString d.Name kv.2 with
    | Except.ok x => Except.ok ⟨d.Files, x, d.PieceLength, d.Pieces, d.Private, d.Source⟩
    | Except.error e => Except.error e
  else if names kv.1 "piece length" "PieceLength" then
    match setInt d.PieceLength kv.2 with
    | Except.ok x => Except.ok ⟨d.Files, d.Name, x, d.Pieces, d.Private, d.Source⟩
    | Except.error e => Except.error e
  else if names kv.1 "pieces" "Pieces" then
    match setString d.Pieces kv.2 with
    | Except.ok x => Except.ok ⟨d.Files, d.Name, d.PieceLength, x, d.Private, d.Source⟩
    | Except.error e => Except.error e
  else if names kv.1 "private" "Private" then
    match setInt d.Private kv.2 with
    | Except.ok x => Except.ok ⟨d.Files, d.Name, d.PieceLength, d.Pieces, x, d.Source⟩
    | Except.error e => Except.error e
  else if names kv.1 "source" "Source" then
    match setString d.Source kv.2 with
    | Except.ok x => Except.ok ⟨d.Files, d.Name, d.PieceLength, d.Pieces, d.Private, x⟩
    | Except.error e => Except.error e
  else Except.ok d

/-- A value met where the struct of the field `Info` is expected. -/
def setInfoDict (old : InfoDict) : BValue → Except Failure InfoDict
  | BValue.dict kvs => assignAll assignInfoDict old kvs
  | BValue.int _ => Except.error Failure.panic
  | _ => Except.ok old

/-- The assignment of one key-value pair to an `info`. -/
def assignInfo (i : info) (kv : List Byte × BValue) : Except Failure info :=
  if names kv.1 "announce" "Announce" then
    match setString i.Announce kv.2 with
    | Except.ok x => Except.ok ⟨x, i.CreatedBy, i.CreationDate, i.Encoding, i.Info⟩
    | Except.error e => Except.error e
  else if names kv.1 "created by" "CreatedBy" then
    match setString i.CreatedBy kv.2 with
    | Except.ok x => Except.ok ⟨i.Announce, x, i.CreationDate, i.Encoding, i.Info⟩
    | Except.error e => Except.error e
  else if names kv.1 "creation date" "CreationDate" then
    match setInt i.CreationDate kv.2 with
    | Except.ok x => Except.ok ⟨i.Announce, i.CreatedBy, x, i.Encoding, i.Info⟩
    | Except.error e => Except.error e
  else if names kv.1 "encoding" "Encoding" then
    match setString i.Encoding kv.2 with
    | Except.ok x => Except.ok ⟨i.Announce, i.CreatedBy, i.CreationDate, x, i.Info⟩
    | Except.error e => Except.error e
  else if names kv.1 "info" "Info" then
    match setInfoDict i.Info kv.2 with
    | Except.ok x => Except.ok ⟨i.Announce, i.CreatedBy, i.CreationDate, i.Encoding, x⟩
    | Except.error e => Except.error e
  else Except.ok i

/-- A model of `bencode.Unmarshal(bytes.NewReader(file), &inf)` of the library
`github.com/jackpal/bencode-go`, which is not part of this program; `inf` is
the zero `info`.  The library reads the first bencoded value of the input; what
follows it is not read.

* Input that is not a bencoded value gives an error.
* A dictionary assigns its pairs in order: a key that names a field (its tag
  or its Go name, letter case aside) assigns the field, any other key is
  skipped, a field no key names keeps its zero value.
* A byte string is assigned to a `string`, an integer to an `int`, a list to a
  slice, a dictionary to a struct.  An integer met where anything but an `int`
  is expected makes the library panic; any other value of the wrong kind is
  passed over and leaves the field as it was.

The model reads the whole value before it assigns, so for input that is both
ill-formed and of the wrong kind it gives the error.  It takes an integer to be
an optional `-` and decimal digits. -/
def Unmarshal (file : List Byte) : Except Failure info :=
  match parseValue (file.length + 1) file with
  | none => Except.error (Failure.error decodeError)
  | some (BValue.dict kvs, _) =>
    assignAll assignInfo ⟨"", "", 0, "", ⟨[], "", 0, "", 0, ""⟩⟩ kvs
  | some (BValue.int _, _) => Except.error Failure.panic
  | some (_, _) => Except.ok ⟨"", "", 0, "", ⟨[], "", 0, "", 0, ""⟩⟩

end bencode

/-! ## The outside world -/

/-- The type `torrents` of the source, `map[string][]byte`: the entries of the
map, at most one for a key. -/
abbrev torrents := List (String × List Byte)

/-- The expression `torrents[key]` with the comma-ok form: the value of the
key, if the map has it. -/
def torrents.get (t : torrents) (key : String) : Option (List Byte) :=
  match t with
  | [] => none
  | (k, v) :: rest => if k = key then some v else torrents.get rest key

/-- The assignment `torrents[key] = value`: the value of an existing key is
replaced, a new key is added. -/
def torrents.set (t : torrents) (key : String) (value : List Byte) : torrents :=
  match t with
  | [] => [(key, value)]
  | (k, v) :: rest => if k = key then (key, value) :: rest else (k, v) :: torrents.set rest key value

/-- What the program uses of an `fs.DirEntry`: `Name()` and `IsDir()`. -/
structure DirEntry where
  Name : String
  IsDir : Bool
  deriving DecidableEq, Repr

/-- The fields of `transmissionrpc.TorrentAddPayload` the program sets; every
other field is left `nil`. -/
structure TorrentAddPayload where
  DownloadDir : String
  MetaInfo : String
  Paused : Bool
  deriving DecidableEq, Repr

/-- What the program does to the outside world. -/
inductive Event where
  /-- The call `os.ReadDir(dir)`. -/
  | readDir (dir : String)
  /-- The call `os.ReadFile(path)`. -/
  | readFile (path : String)
  /-- The call `log.Printf(format, args...)`. -/
  | printf (format : String) (args : List Arg)
  /-- The call `log.Fatalf(format, args...)`, which ends the process. -/
  | fatalf (format : String) (args : List Arg)
  /-- The call `bt.TorrentAdd(payload)` and the error it returned. -/
  | torrentAdd (payload : TorrentAddPayload) (result : Option GoError)
  /-- The call `time.Sleep(d)`, `d` in nanoseconds. -/
  | sleep (d : Int)
  /-- The end of the process by a panic that nothing recovered: the runtime
  prints the panic value and a stack trace. -/
  | panic
  deriving DecidableEq, Repr

/-- The events so far, in program order. -/
abbrev Trace := List Event

/-- The outside world of a run. -/
structure Env where
  /-- The function `os.ReadDir`: the entries of a directory, or an error. -/
  ReadDir : String → Except GoError (List DirEntry)
  /-- The function `os.ReadFile`: the contents of a file, or an error. -/
  ReadFile : String → Except GoError (List Byte)
  /-- The function `bencode.Unmarshal` into an `info`: the decoded value, or
  the error it returns, or a panic. -/
  Unmarshal : List Byte → Except Failure info
  /-- The error of `transmissionrpc.New`, which makes the client `bt`. -/
  New : Option GoError
  /-- The error of `bt.TorrentAdd(payload)`, given everything that happened
  before the call. -/
  TorrentAdd : Trace → TorrentAddPayload → Option GoError

/-- The configuration variables the program reads after `flag.Parse`. -/
structure Conf where
  confTorrentsPath : String
  confMappings : mappings
  confDryRun : Bool
  confWaitSecs : Int

/-! ## The program -/

/-- The loop of `iterDir` over the listed entries.  The state is the data the
callback closes over and the trace. -/
def iterEntries {γ : Type} (dir : String)
    (cb : DirEntry → String → γ × Trace → Option Failure × (γ × Trace)) :
    List DirEntry → γ × Trace → Option Failure × (γ × Trace)
  | [], s => (none, s)
  | entry :: rest, s =>
    let path := filepath.Join [dir, entry.Name]
    match cb entry path s with
    | (some (Failure.error err), s1) =>
      (some (Failure.error (GoError.wrapf "%q: %w" [path] err)), s1)
    | (some Failure.panic, s1) => (some Failure.panic, s1)
    | (none, s1) => iterEntries dir cb rest s1

/-- The function `iterDir(dir, cb)`. -/
def iterDir {γ : Type} (env : Env) (dir : String)
    (cb : DirEntry → String → γ × Trace → Option Failure × (γ × Trace))
    (s : γ × Trace) : Option Failure × (γ × Trace) :=
  let s0 := (s.1, s.2 ++ [Event.readDir dir])
  match env.ReadDir dir with
  | Except.error err => (some (Failure.error err), s0)
  | Except.ok entries => iterEntries dir cb entries s0

/-- The callback of `readTorrentFiles`; it closes over the map `torrents`. -/
def readTorrentFilesCb (env : Env) (entry : DirEntry) (path : String)
    (s : torrents × Trace) : Option Failure × (torrents × Trace) :=
  if entry.IsDir then (none, s)
  else
    let t1 := s.2 ++ [Event.readFile path]
    match env.ReadFile path with
    | Except.error err =>
      (some (Failure.error (GoError.wrapf "read file: %w" [] err)), (s.1, t1))
    | Except.ok file =>
      match env.Unmarshal file with
      | Except.error (Failure.error err) =>
        (some (Failure.error (GoError.wrapf "unmarshal torrent: %w" [] err)), (s.1, t1))
      | Except.error Failure.panic => (some Failure.panic, (s.1, t1))
      | Except.ok inf => (none, (torrents.set s.1 inf.Info.Name file, t1))

/-- The function `readTorrentFiles(dir)`: the map, the way the call ends, and
the trace afterwards. -/
def readTorrentFiles (env : Env) (dir : String) (t : Trace) :
    torrents × Option Failure × Trace :=
  let r := iterDir env dir (readTorrentFilesCb env) (([] : torrents), t)
  (r.2.1, r.1, r.2.2)

/-- The format of the log record of a match. -/
def addingFormat : String :=
  "adding torrent to transmission\n\tname %q\n\tdir local %q\n\tdir remote %q\n\tlen %v\n"

/-- The payload `processMapping` builds for the torrent bytes `data`. -/
def payloadOf (dirRemote : String) (data : List Byte) : TorrentAddPayload :=
  ⟨dirRemote, base64.EncodeToString data, true⟩

/-- The callback of `processMapping`; it closes over nothing it changes. -/
def processMappingCb (env : Env) (conf : Conf) (torrents : torrents)
    (dirLocal dirRemote : String) (entry : DirEntry) (_path : String)
    (s : Unit × Trace) : Option Failure × (Unit × Trace) :=
  match torrents.get entry.Name with
  | none => (none, s)
  | some data =>
    let t1 := s.2 ++ [Event.printf addingFormat
      [Arg.str entry.Name, Arg.str dirLocal, Arg.str dirRemote, Arg.int data.length]]
    if conf.confDryRun then (none, ((), t1))
    else
      let payload := payloadOf dirRemote data
      let err := env.TorrentAdd t1 payload
      let t2 := t1 ++ [Event.torrentAdd payload err]
      match err with
      | some e => (some (Failure.error e), ((), t2))
      | none => (none, ((), t2 ++ [Event.sleep (time.seconds conf.confWaitSecs)]))

/-- The function `processMapping(torrents, dirLocal, dirRemote)`: the way the
call ends and the trace afterwards. -/
def processMapping (env : Env) (conf : Conf) (torrents : torrents)
    (dirLocal dirRemote : String) (t : Trace) : Option Failure × Trace :=
  let r := iterDir env dirLocal (processMappingCb env conf torrents dirLocal dirRemote) ((), t)
  (r.1, r.2.2)

/-- The loop of `main` over `confMappings`: the trace afterwards. -/
def mainLoop (env : Env) (conf : Conf) (torrents : torrents) : List mapping → Trace → Trace
  | [], t => t
  | m :: rest, t =>
    match processMapping env conf torrents m.local_ m.remote t with
    | (some (Failure.error err), t1) =>
      t1 ++ [Event.fatalf "error processing mapping %q -> %q: %v"
        [Arg.str m.local_, Arg.str m.remote, Arg.err err]]
    | (some Failure.panic, t1) => t1 ++ [Event.panic]
    | (none, t1) => mainLoop env conf torrents rest t1

/-- The function `main`: the trace of the whole run. -/
def main (env : Env) (conf : Conf) : Trace :=
  match env.New with
  | some err => [Event.fatalf "error connecting to transmission: %v" [Arg.err err]]
  | none =>
    match readTorrentFiles env conf.confTorrentsPath [] with
    | (_, some (Failure.error err), t1) =>
      t1 ++ [Event.fatalf "read torrent files of %q: %v" [Arg.str conf.confTorrentsPath, Arg.err err]]
    | (_, some Failure.panic, t1) => t1 ++ [Event.panic]
    | (torrents, none, t1) =>
      mainLoop env conf torrents conf.confMappings
        (t1 ++ [Event.printf "parsed %d torrent files\n" [Arg.int torrents.length],
          Event.printf "using %d mappings\n\n" [Arg.int conf.confMappings.length]])

/-! ## What a trace shows -/

/-- The payloads of the `TorrentAdd` calls of a trace, in order. -/
def calls : Trace → List TorrentAddPayload
  | [] => []
  | Event.torrentAdd p _ :: rest => p :: calls rest
  | _ :: rest => calls rest

/-- The number of `TorrentAdd` calls of a trace that returned no error. -/
def successes : Trace → Nat
  | [] => 0
  | Event.torrentAdd _ none :: rest => successes rest + 1
  | _ :: rest => successes rest

/-- The durations of the `time.Sleep` calls of a trace, in order. -/
def pauses : Trace → List Int
  | [] => []
  | Event.sleep d :: rest => d :: pauses rest
  | _ :: rest => pauses rest

/-- The number of "adding torrent" log records of a trace. -/
def addingLogs : Trace → Nat
  | [] => 0
  | Event.printf format _ :: rest =>
    if format = addingFormat then addingLogs rest + 1 else addingLogs rest
  | _ :: rest => addingLogs rest

/-- The paths of the `os.ReadFile` calls of a trace, in order. -/
def filesRead : Trace → List String
  | [] => []
  | Event.readFile p :: rest => p :: filesRead rest
  | _ :: rest => filesRead rest

/-- The directories of the `os.ReadDir` calls of a trace, in order. -/
def dirsListed : Trace → List String
  | [] => []
  | Event.readDir d :: rest => d :: dirsListed rest
  | _ :: rest => dirsListed rest

/-! ## Vocabulary of the statements on `iterDir` -/

/-- The state after the callback has been invoked once on each of the entries,
in order, each time with the entry and `filepath.Join(dir, entry.Name())`. -/
def invoked {γ : Type} (dir : String)
    (cb : DirEntry → String → γ × Trace → Option Failure × (γ × Trace))
    (entries : List DirEntry) (s : γ × Trace) : γ × Trace :=
  entries.foldl (fun s1 e => (cb e (filepath.Join [dir, e.Name]) s1).2) s

/-- The way the invocation on entry number `i` (from 0) ends, made after the
invocations on all the entries before it; `none` past the end. -/
def returned {γ : Type} (dir : String)
    (cb : DirEntry → String → γ × Trace → Option Failure × (γ × Trace))
    (entries : List DirEntry) (s : γ × Trace) (i : Nat) : Option Failure :=
  match entries[i]? with
  | none => none
  | some e => (cb e (filepath.Join [dir, e.Name]) (invoked dir cb (entries.take i) s)).1

/-- What `iterDir` makes of a failure of its callback: an error is wrapped
with the quoted path, a panic passes through. -/
def passOn (path : String) : Failure → Failure
  | Failure.error err => Failure.error (GoError.wrapf "%q: %w" [path] err)
  | Failure.panic => Failure.panic

/-- A callback that returns an error on the entries named in `bad`, panics on
the entries named in `fatal`, and records, in the data it closes over, each
invocation: the entry and the path it was given. -/
def recordCb (bad fatal : List String) (entry : DirEntry) (path : String)
    (s : List (DirEntry × String) × Trace) :
    Option Failure × (List (DirEntry × String) × Trace) :=
  (if entry.Name ∈ fatal then some Failure.panic
    else if entry.Name ∈ bad then some (Failure.error (GoError.external "callback failed"))
    else none,
    (s.1 ++ [(entry, path)], s.2))

/-! ## Vocabulary of the statements on `readTorrentFiles` -/

/-- What `readTorrentFiles` makes of one listed entry: nothing for a
directory; the declared `info.name` and the contents of a file that can be
read and decoded; the failure of its callback for a file that cannot. -/
def loadEntry (env : Env) (dir : String) (entry : DirEntry) :
    Except Failure (Option (String × List Byte)) :=
  if entry.IsDir then Except.ok none
  else
    match env.ReadFile (filepath.Join [dir, entry.Name]) with
    | Except.error err => Except.error (Failure.error (GoError.wrapf "read file: %w" [] err))
    | Except.ok file =>
      match env.Unmarshal file with
      | Except.error (Failure.error err) =>
        Except.error (Failure.error (GoError.wrapf "unmarshal torrent: %w" [] err))
      | Except.error Failure.panic => Except.error Failure.panic
      | Except.ok inf => Except.ok (some (inf.Info.Name, file))

/-- The map after the entries have been indexed into it, in order (entries
that are directories or cannot be loaded leave it as it is). -/
def indexed (env : Env) (dir : String) : torrents → List DirEntry → torrents
  | m, [] => m
  | m, e :: es =>
    match loadEntry env dir e with
    | Except.ok (some (name, file)) => indexed env dir (torrents.set m name file) es
    | _ => indexed env dir m es

/-- The `os.ReadFile` events of the entries: one for each entry that is not a
directory, in order. -/
def readEvents (dir : String) : List DirEntry → List Event
  | [] => []
  | e :: es =>
    if e.IsDir then readEvents dir es
    else Event.readFile (filepath.Join [dir, e.Name]) :: readEvents dir es

/-- The entry is a file that can be read, with contents `file`, and decoded,
and it declares `info.name = name`. -/
def declares (env : Env) (dir : String) (entry : DirEntry) (name : String)
    (file : List Byte) : Prop :=
  entry.IsDir = false ∧ env.ReadFile (filepath.Join [dir, entry.Name]) = Except.ok file ∧
    ∃ inf, env.Unmarshal file = Except.ok inf ∧ inf.Info.Name = name

/-- The entry is a file, not a directory, for which `os.ReadFile` or
`bencode.Unmarshal` returns an error; `err` is that error as the callback of
`readTorrentFiles` wraps it. -/
def broken (env : Env) (dir : String) (entry : DirEntry) (err : GoError) : Prop :=
  entry.IsDir = false ∧
    ((∃ rerr, env.ReadFile (filepath.Join [dir, entry.Name]) = Except.error rerr ∧
        err = GoError.wrapf "read file: %w" [] rerr) ∨
      (∃ file derr, env.ReadFile (filepath.Join [dir, entry.Name]) = Except.ok file ∧
        env.Unmarshal file = Except.error (Failure.error derr) ∧
        err = GoError.wrapf "unmarshal torrent: %w" [] derr))

/-- The entry is a file, not a directory, that can be read and on whose
contents `bencode.Unmarshal` panics. -/
def crashes (env : Env) (dir : String) (entry : DirEntry) : Prop :=
  entry.IsDir = false ∧
    ∃ file, env.ReadFile (filepath.Join [dir, entry.Name]) = Except.ok file ∧
      env.Unmarshal file = Except.error Failure.panic

/-- The entries of the map under a key. -/
def entriesFor (t : torrents) (key : String) : List (String × List Byte) :=
  t.filter (fun kv => kv.1 = key)

/-! ## Vocabulary of the statements on `processMapping` -/

/-- The log record `processMapping` writes for a matching entry. -/
def addingRecord (dirLocal dirRemote : String) (entry : DirEntry) (data : List Byte) : Event :=
  Event.printf addingFormat
    [Arg.str entry.Name, Arg.str dirLocal, Arg.str dirRemote, Arg.int data.length]

/-- The events of one entry in a dry run: a log record when the entry's name
is a key of the index, nothing otherwise. -/
def dryEvents (torrents : torrents) (dirLocal dirRemote : String) (entry : DirEntry) :
    List Event :=
  match torrents.get entry.Name with
  | none => []
  | some data => [addingRecord dirLocal dirRemote entry data]

/-- The events of one entry in a real run when the client accepts the torrent:
log record, submission, pause; nothing when the entry's name is no key of the
index. -/
def okEvents (conf : Conf) (torrents : torrents) (dirLocal dirRemote : String)
    (entry : DirEntry) : List Event :=
  match torrents.get entry.Name with
  | none => []
  | some data =>
    [addingRecord dirLocal dirRemote entry data,
      Event.torrentAdd (payloadOf dirRemote data) none,
      Event.sleep (time.seconds conf.confWaitSecs)]

/-- The submission of one entry: the payload for the bytes the index holds
under the entry's name, if it holds any. -/
def submission (torrents : torrents) (dirRemote : String) (entry : DirEntry) :
    Option TorrentAddPayload :=
  match torrents.get entry.Name with
  | none => none
  | some data => some ⟨dirRemote, base64.EncodeToString data, true⟩

/-- The number of listed entries whose name is a key of the index. -/
def matches_ (torrents : torrents) (entries : List DirEntry) : Nat :=
  (entries.filter (fun e => (torrents.get e.Name).isSome)).length

/-- Every successful `TorrentAdd` of the trace is followed at once by
`time.Sleep(d)`, and every `time.Sleep` of the trace follows at once a
successful `TorrentAdd`.  `pending` tells that the event before the trace was
a successful `TorrentAdd` still waiting for its pause. -/
def paced (d : Int) : Bool → Trace → Bool
  | pending, [] => !pending
  | pending, Event.sleep d1 :: rest => pending && decide (d1 = d) && paced d false rest
  | pending, Event.torrentAdd _ none :: rest => !pending && paced d true rest
  | pending, _ :: rest => !pending && paced d false rest

/-! ## Example worlds -/

/-- The contents of a torrent-definition file that declares `name`. -/
def torrentFile (name : String) : List Byte :=
  bencode.bytes ("d8:announce9:http://tr4:infod4:name" ++ toString name.length ++ ":" ++ name ++
    "12:piece lengthi16384e6:pieces0:ee")

/-- The world of the scenario of the specification: the torrents directory
`torrents` holds `A.torrent` (name `Movie1`), `B.torrent` (name `Movie2`) and a
subdirectory; `/data/old` holds `Movie1` and `Movie3`; the client accepts
every torrent. -/
def scenarioEnv : Env where
  ReadDir := fun dir =>
    if dir = "torrents" then
      Except.ok [⟨"A.torrent", false⟩, ⟨"B.torrent", false⟩, ⟨"sub", true⟩]
    else if dir = "/data/old" then Except.ok [⟨"Movie1", true⟩, ⟨"Movie3", false⟩]
    else Except.error (GoError.external "no such file or directory")
  ReadFile := fun path =>
    if path = "torrents/A.torrent" then Except.ok (torrentFile "Movie1")
    else if path = "torrents/B.torrent" then Except.ok (torrentFile "Movie2")
    else Except.error (GoError.external "no such file or directory")
  Unmarshal := bencode.Unmarshal
  New := none
  TorrentAdd := fun _ _ => none

/-- The index of the scenario: `Movie1` and `Movie2`. -/
def scenarioIndex : torrents :=
  [("Movie1", torrentFile "Movie1"), ("Movie2", torrentFile "Movie2")]

/-- A configuration of the scenario: one mapping `/data/old` to `/data/new`,
a real run, five seconds between submissions. -/
def scenarioConf : Conf where
  confTorrentsPath := "torrents"
  confMappings := [⟨"/data/old", "/data/new"⟩]
  confDryRun := false
  confWaitSecs := 5

/-- The configuration of the scenario as a dry run. -/
def scenarioDryConf : Conf where
  confTorrentsPath := "torrents"
  confMappings := [⟨"/data/old", "/data/new"⟩]
  confDryRun := true
  confWaitSecs := 5

/-- The configuration of the scenario with a wait of 9223372037 seconds. -/
def scenarioLongWaitConf : Conf where
  confTorrentsPath := "torrents"
  confMappings := [⟨"/data/old", "/data/new"⟩]
  confDryRun := false
  confWaitSecs := 9223372037

/-- A world in which `/data/old` holds `Movie1`, `Movie3`, `Movie2`, `Movie1`
and `/data/more` holds `Movie1`, and the client fails on its second call. -/
def failingEnv : Env where
  ReadDir := fun dir =>
    if dir = "/data/old" then
      Except.ok [⟨"Movie1", true⟩, ⟨"Movie3", false⟩, ⟨"Movie2", true⟩, ⟨"Movie1", true⟩]
    else if dir = "/data/more" then Except.ok [⟨"Movie1", true⟩]
    else Except.error (GoError.external "no such file or directory")
  ReadFile := fun _ => Except.error (GoError.external "no such file or directory")
  Unmarshal := bencode.Unmarshal
  New := none
  TorrentAdd := fun t _ =>
    if (calls t).length = 1 then some (GoError.external "rpc: connection refused") else none

/-- A world whose torrents directory holds two files that both declare
`Movie1`: `A.torrent`, with no announce URL, and after it `B.torrent`. -/
def collisionEnv : Env where
  ReadDir := fun dir =>
    if dir = "torrents" then Except.ok [⟨"A.torrent", false⟩, ⟨"B.torrent", false⟩]
    else Except.error (GoError.external "no such file or directory")
  ReadFile := fun path =>
    if path = "torrents/A.torrent" then Except.ok (bencode.bytes "d4:infod4:name6:Movie1ee")
    else if path = "torrents/B.torrent" then Except.ok (torrentFile "Movie1")
    else Except.error (GoError.external "no such file or directory")
  Unmarshal := bencode.Unmarshal
  New := none
  TorrentAdd := fun _ _ => none

/-- A world whose torrents directory lists, in the order of `os.ReadDir` (by
name), a directory, the file `A.torrent` declaring `Movie1`, the malformed file
`Abad.torrent`, and the file `B.torrent` declaring `Movie1` too; `/data/old`
holds `Movie1`. -/
def brokenEnv : Env where
  ReadDir := fun dir =>
    if dir = "torrents" then
      Except.ok [⟨"0sub", true⟩, ⟨"A.torrent", false⟩, ⟨"Abad.torrent", false⟩,
        ⟨"B.torrent", false⟩]
    else if dir = "/data/old" then Except.ok [⟨"Movie1", true⟩]
    else Except.error (GoError.external "no such file or directory")
  ReadFile := fun path =>
    if path = "torrents/A.torrent" then Except.ok (bencode.bytes "d4:infod4:name6:Movie1ee")
    else if path = "torrents/Abad.torrent" then Except.ok (bencode.bytes "not a torrent")
    else if path = "torrents/B.torrent" then Except.ok (torrentFile "Movie1")
    else Except.error (GoError.external "no such file or directory")
  Unmarshal := bencode.Unmarshal
  New := none
  TorrentAdd := fun _ _ => none

/-- A world whose torrents directory lists the file `A.torrent` declaring
`Movie1`, the file `Atyped.torrent` whose `name` is an integer, not a string,
and the file `B.torrent` declaring `Movie2`; `/data/old` holds `Movie1`. -/
def panicEnv : Env where
  ReadDir := fun dir =>
    if dir = "torrents" then
      Except.ok [⟨"A.torrent", false⟩, ⟨"Atyped.torrent", false⟩, ⟨"B.torrent", false⟩]
    else if dir = "/data/old" then Except.ok [⟨"Movie1", true⟩]
    else Except.error (GoError.external "no such file or directory")
  ReadFile := fun path =>
    if path = "torrents/A.torrent" then Except.ok (torrentFile "Movie1")
    else if path = "torrents/Atyped.torrent" then Except.ok (bencode.bytes "d4:infod4:namei5eee")
    else if path = "torrents/B.torrent" then Except.ok (torrentFile "Movie2")
    else Except.error (GoError.external "no such file or directory")
  Unmarshal := bencode.Unmarshal
  New := none
  TorrentAdd := fun _ _ => none

/-- A world whose torrents directory holds one file, which decodes and
declares the empty `info.name`. -/
def emptyNameEnv : Env where
  ReadDir := fun dir =>
    if dir = "torrents" then Except.ok [⟨"E.torrent", false⟩]
    else Except.error (GoError.external "no such file or directory")
  ReadFile := fun path =>
    if path = "torrents/E.torrent" then Except.ok (bencode.bytes "d4:infod4:name0:ee")
    else Except.error (GoError.external "no such file or directory")
  Unmarshal := bencode.Unmarshal
  New := none
  TorrentAdd := fun _ _ => none

/-! ## Lemmas on `strings.SplitN` -/

theorem strings.cut_none {sep : Char} {s : List Char} :
    strings.cut sep s = none ↔ sep ∉ s := by
  induction s with
  | nil => simp [strings.cut]
  | cons c cs ih =>
    by_cases h : c = sep
    · simp [strings.cut, h]
    · cases hc : strings.cut sep cs with
      | none =>
        have := ih.mp hc
        simp [strings.cut, h, hc, this, Ne.symm h]
      | some p =>
        have hne : strings.cut sep cs ≠ none := by simp [hc]
        have hmem : sep ∈ cs := by
          by_contra hn
          exact hne (ih.mpr hn)
        simp [strings.cut, h, hc, hmem]

theorem strings.cut_some {sep : Char} {s before after : List Char}
    (h : strings.cut sep s = some (before, after)) :
    s = before ++ sep :: after ∧ sep ∉ before := by
  induction s generalizing before with
  | nil => simp [strings.cut] at h
  | cons c cs ih =>
    by_cases hc : c = sep
    · simp [strings.cut, hc] at h
      obtain ⟨rfl, rfl⟩ := h
      simp [hc]
    · cases hcut : strings.cut sep cs with
      | none => simp [strings.cut, hc, hcut] at h
      | some p =>
        obtain ⟨b, a⟩ := p
        simp [strings.cut, hc, hcut] at h
        obtain ⟨rfl, rfl⟩ := h
        obtain ⟨h1, h2⟩ := ih hcut
        refine ⟨by rw [h1]; simp, ?_⟩
        simp [h2, Ne.symm hc]

/-! ## Lemmas on `iterDir` -/

theorem returned_zero {γ : Type} (dir : String)
    (cb : DirEntry → String → γ × Trace → Option Failure × (γ × Trace))
    (e : DirEntry) (es : List DirEntry) (s : γ × Trace) :
    returned dir cb (e :: es) s 0 = (cb e (filepath.Join [dir, e.Name]) s).1 := by
  simp [returned, invoked]

theorem returned_succ {γ : Type} (dir : String)
    (cb : DirEntry → String → γ × Trace → Option Failure × (γ × Trace))
    (e : DirEntry) (es : List DirEntry) (s : γ × Trace) (i : Nat) :
    returned dir cb (e :: es) s (i + 1) =
      returned dir cb es (cb e (filepath.Join [dir, e.Name]) s).2 i := by
  simp [returned, invoked]

theorem iterEntries_ok {γ : Type} (dir : String)
    (cb : DirEntry → String → γ × Trace → Option Failure × (γ × Trace))
    (entries : List DirEntry) (s : γ × Trace)
    (h : ∀ i, i < entries.length → returned dir cb entries s i = none) :
    iterEntries dir cb entries s = (none, invoked dir cb entries s) := by
  induction entries generalizing s with
  | nil => simp [iterEntries, invoked]
  | cons e es ih =>
    have h0 := h 0 (by simp)
    rw [returned_zero] at h0
    have hs : ∀ i, i < es.length →
        returned dir cb es (cb e (filepath.Join [dir, e.Name]) s).2 i = none := by
      intro i hi
      rw [← returned_succ]
      exact h (i + 1) (by simpa using hi)
    have := ih _ hs
    cases hcb : cb e (filepath.Join [dir, e.Name]) s with
    | mk r s1 =>
      rw [hcb] at h0 this
      simp only at h0
      subst h0
      simp [iterEntries, hcb, this, invoked]

theorem iterEntries_stop {γ : Type} (dir : String)
    (cb : DirEntry → String → γ × Trace → Option Failure × (γ × Trace))
    (entries : List DirEntry) (s : γ × Trace) (k : Nat) (f : Failure)
    (hk : ∀ i, i < k → returned dir cb entries s i = none)
    (hf : returned dir cb entries s k = some f) :
    ∃ e, entries[k]? = some e ∧
      iterEntries dir cb entries s =
        (some (passOn (filepath.Join [dir, e.Name]) f),
          invoked dir cb (entries.take (k + 1)) s) := by
  induction entries generalizing s k with
  | nil => simp [returned] at hf
  | cons e es ih =>
    cases k with
    | zero =>
      rw [returned_zero] at hf
      refine ⟨e, by simp, ?_⟩
      cases hcb : cb e (filepath.Join [dir, e.Name]) s with
      | mk r s1 =>
        rw [hcb] at hf
        simp only at hf
        subst hf
        cases f <;> simp [iterEntries, hcb, invoked, passOn]
    | succ k =>
      have h0 := hk 0 (by omega)
      rw [returned_zero] at h0
      rw [returned_succ] at hf
      have hs : ∀ i, i < k →
          returned dir cb es (cb e (filepath.Join [dir, e.Name]) s).2 i = none := by
        intro i hi
        rw [← returned_succ]
        exact hk (i + 1) (by omega)
      obtain ⟨e1, he1, hrun⟩ := ih _ k hs hf
      refine ⟨e1, by simpa using he1, ?_⟩
      cases hcb : cb e (filepath.Join [dir, e.Name]) s with
      | mk r s1 =>
        rw [hcb] at h0 hrun
        simp only at h0
        subst h0
        simp [iterEntries, hcb, hrun, invoked]

theorem iterEntries_fail {γ : Type} (dir : String)
    (cb : DirEntry → String → γ × Trace → Option Failure × (γ × Trace))
    (entries : List DirEntry) (s : γ × Trace) (k : Nat) (err : GoError)
    (hk : ∀ i, i < k → returned dir cb entries s i = none)
    (herr : returned dir cb entries s k = some (Failure.error err)) :
    ∃ e, entries[k]? = some e ∧
      iterEntries dir cb entries s =
        (some (Failure.error (GoError.wrapf "%q: %w" [filepath.Join [dir, e.Name]] err)),
          invoked dir cb (entries.take (k + 1)) s) :=
  iterEntries_stop dir cb entries s k (Failure.error err) hk herr

theorem iterEntries_panic {γ : Type} (dir : String)
    (cb : DirEntry → String → γ × Trace → Option Failure × (γ × Trace))
    (entries : List DirEntry) (s : γ × Trace) (k : Nat)
    (hk : ∀ i, i < k → returned dir cb entries s i = none)
    (hp : returned dir cb entries s k = some Failure.panic) :
    iterEntries dir cb entries s =
      (some Failure.panic, invoked dir cb (entries.take (k + 1)) s) := by
  obtain ⟨e, _, hrun⟩ := iterEntries_stop dir cb entries s k Failure.panic hk hp
  exact hrun

theorem iterEntries_none {γ : Type} (dir : String)
    (cb : DirEntry → String → γ × Trace → Option Failure × (γ × Trace))
    (entries : List DirEntry) (s : γ × Trace)
    (h : (iterEntries dir cb entries s).1 = none) :
    ∀ i, i < entries.length → returned dir cb entries s i = none := by
  induction entries generalizing s with
  | nil => intro i hi; simp at hi
  | cons e es ih =>
    cases hcb : cb e (filepath.Join [dir, e.Name]) s with
    | mk r s1 =>
      cases r with
      | some f => cases f <;> simp [iterEntries, hcb] at h
      | none =>
        simp only [iterEntries, hcb] at h
        intro i hi
        cases i with
        | zero => rw [returned_zero, hcb]
        | succ i =>
          rw [returned_succ, hcb]
          exact ih s1 h i (by simpa using hi)

theorem iterEntries_append {γ : Type} (dir : String)
    (cb : DirEntry → String → γ × Trace → Option Failure × (γ × Trace))
    (pre post : List DirEntry) (s : γ × Trace) :
    iterEntries dir cb (pre ++ post) s =
      match iterEntries dir cb pre s with
      | (some f, s1) => (some f, s1)
      | (none, s1) => iterEntries dir cb post s1 := by
  induction pre generalizing s with
  | nil => simp [iterEntries]
  | cons e es ih =>
    cases hcb : cb e (filepath.Join [dir, e.Name]) s with
    | mk r s1 =>
      cases r with
      | some f => cases f <;> simp [iterEntries, hcb]
      | none => simp [iterEntries, hcb, ih]

/-! ## Lemmas on `filepath.Join` -/

theorem filepath.Join_isAbs (dir name : String) (h : filepath.IsAbs dir = true) :
    filepath.IsAbs (filepath.Join [dir, name]) = true := by
  have hd : dir.data ≠ [] := by
    intro hnil
    simp [filepath.IsAbs, hnil] at h
  obtain ⟨c, cs, hcs⟩ := List.exists_cons_of_ne_nil hd
  have hc : c = '/' := by
    simpa [filepath.IsAbs, hcs] using h
  subst hc
  have hj : List.intercalate ['/'] ['/' :: cs, name.data] = '/' :: (cs ++ '/' :: name.data) := by
    simp [List.intercalate, List.intersperse]
  simp [filepath.Join, filepath.Clean, filepath.IsAbs, List.dropWhile, hcs, hj]

theorem filepath.elements_no_sep (l : List Char) :
    ∀ e ∈ filepath.elements l, '/' ∉ e := by
  induction l with
  | nil => simp [filepath.elements]
  | cons c cs ih =>
    by_cases hc : c = '/'
    · intro e he
      simp only [filepath.elements, hc, if_true, List.mem_cons] at he
      rcases he with rfl | he
      · simp
      · exact ih e he
    · cases hes : filepath.elements cs with
      | nil =>
        intro e he
        simp only [filepath.elements, hc, if_false, hes, List.mem_singleton] at he
        subst he
        simpa using Ne.symm hc
      | cons x xs =>
        intro e he
        simp only [filepath.elements, hc, if_false, hes, List.mem_cons] at he
        rcases he with rfl | he
        · have hx := ih x (by simp [hes])
          simp only [List.mem_cons, not_or]
          exact ⟨Ne.symm hc, hx⟩
        · exact ih e (by simp [hes, he])

theorem filepath.cleanStep_inv (rooted : Bool) (st : List (List Char) × Nat) (e : List Char)
    (hst : ∀ c ∈ st.1, c ≠ [] ∧ '/' ∉ c) (he : '/' ∉ e) :
    ∀ c ∈ (filepath.cleanStep rooted st e).1, c ≠ [] ∧ '/' ∉ c := by
  unfold filepath.cleanStep
  by_cases h1 : e = []
  · simpa [h1] using hst
  · by_cases h2 : e = ['.']
    · simpa [h1, h2] using hst
    · by_cases h3 : e = ['.', '.']
      · subst h3
        by_cases h4 : st.1.length > st.2
        · intro c hc
          have hc1 : c ∈ st.1.tail := by simpa [h4] using hc
          exact hst c (List.mem_of_mem_tail hc1)
        · cases rooted with
          | true =>
            intro c hc
            have hc1 : c ∈ st.1 := by simpa [h4] using hc
            exact hst c hc1
          | false =>
            intro c hc
            have hc1 : c = ['.', '.'] ∨ c ∈ st.1 := by simpa [h4] using hc
            rcases hc1 with rfl | hc1
            · exact ⟨by simp, by decide⟩
            · exact hst c hc1
      · simp only [h1, h2, h3, if_false]
        intro c hc
        simp only [List.mem_cons] at hc
        rcases hc with rfl | hc
        · exact ⟨h1, he⟩
        · exact hst c hc

theorem filepath.foldl_cleanStep_inv (rooted : Bool) (es : List (List Char))
    (st : List (List Char) × Nat)
    (hst : ∀ c ∈ st.1, c ≠ [] ∧ '/' ∉ c) (hes : ∀ e ∈ es, '/' ∉ e) :
    ∀ c ∈ (es.foldl (filepath.cleanStep rooted) st).1, c ≠ [] ∧ '/' ∉ c := by
  induction es generalizing st with
  | nil => simpa using hst
  | cons e es ih =>
    simp only [List.foldl_cons]
    exact ih _ (filepath.cleanStep_inv rooted st e hst (hes e (by simp)))
      (fun x hx => hes x (by simp [hx]))

theorem filepath.Clean_relative (path : String) (h : path.data.head? ≠ some '/') :
    filepath.IsAbs (filepath.Clean path) = false := by
  unfold filepath.Clean
  by_cases h0 : path.data = []
  · simp [h0, filepath.IsAbs]
  · have hinv := filepath.foldl_cleanStep_inv false (filepath.elements path.data) ([], 0)
      (by simp) (filepath.elements_no_sep path.data)
    simp only [h0, if_false, h, decide_False, Bool.false_eq_true]
    cases hout : ((filepath.elements path.data).foldl (filepath.cleanStep false) ([], 0)).1.reverse with
    | nil => simp [List.intercalate, filepath.IsAbs]
    | cons c cs =>
      have hc : c ∈ ((filepath.elements path.data).foldl (filepath.cleanStep false) ([], 0)).1 := by
        have : c ∈ ((filepath.elements path.data).foldl (filepath.cleanStep false)
            ([], 0)).1.reverse := by simp [hout]
        simpa using this
      obtain ⟨hne, hsep⟩ := hinv c hc
      obtain ⟨x, xs, hx⟩ := List.exists_cons_of_ne_nil hne
      subst hx
      have hx1 : x ≠ '/' := by
        intro hx2
        apply hsep
        simp [hx2]
      have hbody : ∃ tl, List.intercalate ['/'] ((x :: xs) :: cs) = x :: tl := by
        cases cs <;> simp [List.intercalate, List.intersperse]
      obtain ⟨tl, htl⟩ := hbody
      simp [htl, filepath.IsAbs, hx1]

theorem filepath.Join_isAbs_iff (dir name : String) (hdir : dir.data ≠ []) :
    filepath.IsAbs (filepath.Join [dir, name]) = filepath.IsAbs dir := by
  cases habs : filepath.IsAbs dir with
  | true => exact filepath.Join_isAbs dir name habs
  | false =>
    obtain ⟨c, cs, hcs⟩ := List.exists_cons_of_ne_nil hdir
    have hc : c ≠ '/' := by
      intro hc
      simp [filepath.IsAbs, hcs, hc] at habs
    have hj : List.intercalate ['/'] [c :: cs, name.data] = c :: (cs ++ '/' :: name.data) := by
      simp [List.intercalate, List.intersperse]
    have hjoin : filepath.Join [dir, name] =
        filepath.Clean (String.mk (c :: (cs ++ '/' :: name.data))) := by
      simp [filepath.Join, List.dropWhile, hcs, hj]
    rw [hjoin]
    exact filepath.Clean_relative _ (by simp [hc])

/-! ## Lemmas on `base64` -/

theorem base64.decChar_encChar (n : Nat) (h : n < 64) :
    base64.decChar (base64.encChar n) = some n := by
  interval_cases n <;> decide

theorem base64.encChar_ne_pad (n : Nat) (h : n < 64) : base64.encChar n ≠ '=' := by
  interval_cases n <;> decide

theorem base64.decode_encode (data : List Byte) :
    base64.decode (base64.encode data) = some data := by
  induction data using base64.encode.induct with
  | case1 => simp [base64.encode, base64.decode]
  | case2 b0 =>
    have h0 := b0.isLt
    have e0 := base64.decChar_encChar (b0.val * 65536 / 262144 % 64) (Nat.mod_lt _ (by decide))
    have e1 := base64.decChar_encChar (b0.val * 65536 / 4096 % 64) (Nat.mod_lt _ (by decide))
    simp only [base64.encode, base64.decode, e0, e1, if_true]
    simp only [Option.some.injEq, List.cons.injEq, and_true]
    apply Fin.ext
    simp only [base64.toByte]
    omega
  | case3 b0 b1 =>
    have h0 := b0.isLt
    have h1 := b1.isLt
    have e0 := base64.decChar_encChar ((b0.val * 65536 + b1.val * 256) / 262144 % 64)
      (Nat.mod_lt _ (by decide))
    have e1 := base64.decChar_encChar ((b0.val * 65536 + b1.val * 256) / 4096 % 64)
      (Nat.mod_lt _ (by decide))
    have e2 := base64.decChar_encChar ((b0.val * 65536 + b1.val * 256) / 64 % 64)
      (Nat.mod_lt _ (by decide))
    have p2 := base64.encChar_ne_pad ((b0.val * 65536 + b1.val * 256) / 64 % 64)
      (Nat.mod_lt _ (by decide))
    simp only [base64.encode, base64.decode, e0, e1, e2, p2, if_true, if_false]
    simp only [Option.some.injEq, List.cons.injEq, and_true]
    constructor <;> (apply Fin.ext; simp only [base64.toByte]; omega)
  | case4 b0 b1 b2 rest ih =>
    have h0 := b0.isLt
    have h1 := b1.isLt
    have h2 := b2.isLt
    have e0 := base64.decChar_encChar ((b0.val * 65536 + b1.val * 256 + b2.val) / 262144 % 64)
      (Nat.mod_lt _ (by decide))
    have e1 := base64.decChar_encChar ((b0.val * 65536 + b1.val * 256 + b2.val) / 4096 % 64)
      (Nat.mod_lt _ (by decide))
    have e2 := base64.decChar_encChar ((b0.val * 65536 + b1.val * 256 + b2.val) / 64 % 64)
      (Nat.mod_lt _ (by decide))
    have e3 := base64.decChar_encChar ((b0.val * 65536 + b1.val * 256 + b2.val) % 64)
      (Nat.mod_lt _ (by decide))
    have p3 := base64.encChar_ne_pad ((b0.val * 65536 + b1.val * 256 + b2.val) % 64)
      (Nat.mod_lt _ (by decide))
    simp only [base64.encode, base64.decode, e0, e1, e2, e3, p3, ih, if_false]
    simp only [Option.some.injEq, List.cons.injEq, and_true]
    refine ⟨?_, ?_, ?_⟩ <;> (apply Fin.ext; simp only [base64.toByte]; omega)

/-! ## Lemmas on traces -/

theorem calls_append (a b : Trace) : calls (a ++ b) = calls a ++ calls b := by
  induction a with
  | nil => rfl
  | cons e es ih => cases e <;> simp [calls, ih]

theorem pauses_append (a b : Trace) : pauses (a ++ b) = pauses a ++ pauses b := by
  induction a with
  | nil => rfl
  | cons e es ih => cases e <;> simp [pauses, ih]

theorem filesRead_append (a b : Trace) : filesRead (a ++ b) = filesRead a ++ filesRead b := by
  induction a with
  | nil => rfl
  | cons e es ih => cases e <;> simp [filesRead, ih]

theorem dirsListed_append (a b : Trace) :
    dirsListed (a ++ b) = dirsListed a ++ dirsListed b := by
  induction a with
  | nil => rfl
  | cons e es ih => cases e <;> simp [dirsListed, ih]

theorem successes_append (a b : Trace) : successes (a ++ b) = successes a + successes b := by
  induction a with
  | nil => simp [successes]
  | cons e es ih =>
    cases e with
    | torrentAdd p r =>
      cases r with
      | none => simp [successes, ih]; omega
      | some err => simp [successes, ih]
    | _ => simp [successes, ih]

theorem addingLogs_append (a b : Trace) :
    addingLogs (a ++ b) = addingLogs a + addingLogs b := by
  induction a with
  | nil => simp [addingLogs]
  | cons e es ih =>
    cases e with
    | printf f args =>
      by_cases h : f = addingFormat
      · simp [addingLogs, h, ih]; omega
      · simp [addingLogs, h, ih]
    | _ => simp [addingLogs, ih]

theorem paced_append (d : Int) (pending : Bool) (a b : Trace)
    (ha : paced d pending a = true) (hb : paced d false b = true) :
    paced d pending (a ++ b) = true := by
  induction a generalizing pending with
  | nil =>
    cases pending with
    | true => simp [paced] at ha
    | false => simpa using hb
  | cons e es ih =>
    cases e with
    | sleep d1 =>
      simp only [paced, Bool.and_eq_true, decide_eq_true_eq] at ha
      simp only [List.cons_append, paced, Bool.and_eq_true, decide_eq_true_eq]
      exact ⟨ha.1, ih false ha.2⟩
    | torrentAdd p r =>
      cases r with
      | none =>
        simp only [paced, Bool.and_eq_true] at ha
        simp only [List.cons_append, paced, Bool.and_eq_true]
        exact ⟨ha.1, ih true ha.2⟩
      | some err =>
        simp only [paced, Bool.and_eq_true] at ha
        simp only [List.cons_append, paced, Bool.and_eq_true]
        exact ⟨ha.1, ih false ha.2⟩
    | _ =>
      simp only [paced, Bool.and_eq_true] at ha
      simp only [List.cons_append, paced, Bool.and_eq_true]
      exact ⟨ha.1, ih false ha.2⟩

theorem paced_pauses (d : Int) (pending : Bool) (t : Trace)
    (h : paced d pending t = true) :
    pauses t = List.replicate (successes t + (if pending then 1 else 0)) d := by
  induction t generalizing pending with
  | nil =>
    cases pending with
    | true => simp [paced] at h
    | false => simp [pauses, successes]
  | cons e es ih =>
    cases e with
    | sleep d1 =>
      simp only [paced, Bool.and_eq_true, decide_eq_true_eq] at h
      obtain ⟨⟨hp, hd⟩, hrest⟩ := h
      subst hp hd
      simp [pauses, successes, ih false hrest, List.replicate_succ]
    | torrentAdd p r =>
      cases r with
      | none =>
        simp only [paced, Bool.and_eq_true, Bool.not_eq_true'] at h
        obtain ⟨hp, hrest⟩ := h
        subst hp
        simp [pauses, successes, ih true hrest]
      | some err =>
        simp only [paced, Bool.and_eq_true, Bool.not_eq_true'] at h
        obtain ⟨hp, hrest⟩ := h
        subst hp
        simp [pauses, successes, ih false hrest]
    | _ =>
      simp only [paced, Bool.and_eq_true, Bool.not_eq_true'] at h
      obtain ⟨hp, hrest⟩ := h
      subst hp
      simp [pauses, successes, ih false hrest]

/-! ## Lemmas on `processMapping` -/

theorem calls_dryEvents (torrents : torrents) (dirLocal dirRemote : String)
    (entries : List DirEntry) :
    calls (entries.flatMap (dryEvents torrents dirLocal dirRemote)) = [] ∧
    pauses (entries.flatMap (dryEvents torrents dirLocal dirRemote)) = [] ∧
    addingLogs (entries.flatMap (dryEvents torrents dirLocal dirRemote)) =
      matches_ torrents entries := by
  induction entries with
  | nil => simp [calls, pauses, addingLogs, matches_]
  | cons e es ih =>
    obtain ⟨h1, h2, h3⟩ := ih
    simp only [List.flatMap_cons, calls_append, pauses_append, addingLogs_append, h1, h2, h3]
    cases hg : torrents.get e.Name with
    | none => simp [dryEvents, hg, calls, pauses, addingLogs, matches_, List.filter_cons]
    | some data =>
      simp [dryEvents, hg, calls, pauses, addingLogs, matches_, List.filter_cons, addingRecord]
      omega

theorem calls_okEvents (conf : Conf) (torrents : torrents) (dirLocal dirRemote : String)
    (entries : List DirEntry) :
    calls (entries.flatMap (okEvents conf torrents dirLocal dirRemote)) =
      entries.filterMap (submission torrents dirRemote) ∧
    (pauses (entries.flatMap (okEvents conf torrents dirLocal dirRemote))).length =
      matches_ torrents entries ∧
    addingLogs (entries.flatMap (okEvents conf torrents dirLocal dirRemote)) =
      matches_ torrents entries := by
  induction entries with
  | nil => simp [calls, pauses, addingLogs, matches_]
  | cons e es ih =>
    obtain ⟨h1, h2, h3⟩ := ih
    simp only [List.flatMap_cons, calls_append, pauses_append, addingLogs_append, h1, h3,
      List.length_append, h2]
    cases hg : torrents.get e.Name with
    | none =>
      simp [okEvents, hg, calls, pauses, addingLogs, matches_, List.filter_cons, submission]
    | some data =>
      simp [okEvents, hg, calls, pauses, addingLogs, matches_, List.filter_cons, addingRecord,
        submission, payloadOf]
      omega

theorem length_filterMap_submission (torrents : torrents) (dirRemote : String)
    (entries : List DirEntry) :
    (entries.filterMap (submission torrents dirRemote)).length = matches_ torrents entries := by
  induction entries with
  | nil => simp [matches_]
  | cons e es ih =>
    cases hg : torrents.get e.Name with
    | none => simpa [submission, hg, matches_, List.filter_cons] using ih
    | some data => simpa [submission, hg, matches_, List.filter_cons] using ih

theorem processMapping_dry_entries (env : Env) (conf : Conf) (torrents : torrents)
    (dirLocal dirRemote : String) (hdry : conf.confDryRun = true)
    (entries : List DirEntry) (t : Trace) :
    iterEntries dirLocal (processMappingCb env conf torrents dirLocal dirRemote) entries ((), t) =
      (none, ((), t ++ entries.flatMap (dryEvents torrents dirLocal dirRemote))) := by
  induction entries generalizing t with
  | nil => simp [iterEntries]
  | cons e es ih =>
    cases hg : torrents.get e.Name with
    | none => simp [iterEntries, processMappingCb, hg, ih, dryEvents]
    | some data =>
      simp [iterEntries, processMappingCb, hg, ih, dryEvents, hdry, addingRecord]

theorem processMapping_ok_entries (env : Env) (conf : Conf) (torrents : torrents)
    (dirLocal dirRemote : String) (hdry : conf.confDryRun = false)
    (entries : List DirEntry) (t : Trace)
    (h : (iterEntries dirLocal (processMappingCb env conf torrents dirLocal dirRemote)
      entries ((), t)).1 = none) :
    iterEntries dirLocal (processMappingCb env conf torrents dirLocal dirRemote) entries ((), t) =
      (none, ((), t ++ entries.flatMap (okEvents conf torrents dirLocal dirRemote))) := by
  induction entries generalizing t with
  | nil => simp [iterEntries]
  | cons e es ih =>
    cases hg : torrents.get e.Name with
    | none =>
      simp only [iterEntries, processMappingCb, hg] at h ⊢
      rw [ih t h]
      simp [okEvents, hg]
    | some data =>
      cases hc : env.TorrentAdd (t ++ [addingRecord dirLocal dirRemote e data])
          (payloadOf dirRemote data) with
      | some err =>
        simp [iterEntries, processMappingCb, hg, hdry, addingRecord] at h hc
        simp [hc] at h
      | none =>
        simp only [addingRecord] at hc
        simp only [iterEntries, processMappingCb, hg, hdry, hc] at h ⊢
        simp only [Bool.false_eq_true, if_false] at h ⊢
        rw [ih _ h]
        simp [okEvents, hg, addingRecord]

theorem processMapping_nofail_entries (env : Env) (conf : Conf) (torrents : torrents)
    (dirLocal dirRemote : String) (hnofail : ∀ t p, env.TorrentAdd t p = none)
    (entries : List DirEntry) (t : Trace) :
    (iterEntries dirLocal (processMappingCb env conf torrents dirLocal dirRemote)
      entries ((), t)).1 = none := by
  induction entries generalizing t with
  | nil => simp [iterEntries]
  | cons e es ih =>
    cases hg : torrents.get e.Name with
    | none => simp [iterEntries, processMappingCb, hg, ih]
    | some data =>
      cases hd : conf.confDryRun <;>
        simp [iterEntries, processMappingCb, hg, hd, hnofail, ih]

theorem processMapping_listed (env : Env) (conf : Conf) (torrents : torrents)
    (dirLocal dirRemote : String) (entries : List DirEntry) (t : Trace)
    (hlist : env.ReadDir dirLocal = Except.ok entries) :
    processMapping env conf torrents dirLocal dirRemote t =
      ((iterEntries dirLocal (processMappingCb env conf torrents dirLocal dirRemote) entries
          ((), t ++ [Event.readDir dirLocal])).1,
        (iterEntries dirLocal (processMappingCb env conf torrents dirLocal dirRemote) entries
          ((), t ++ [Event.readDir dirLocal])).2.2) := by
  simp [processMapping, iterDir, hlist]

theorem processMapping_nofail_run (env : Env) (conf : Conf) (torrents : torrents)
    (dirLocal dirRemote : String) (entries : List DirEntry) (t : Trace)
    (hdry : conf.confDryRun = false)
    (hlist : env.ReadDir dirLocal = Except.ok entries)
    (hnofail : ∀ t1 p, env.TorrentAdd t1 p = none) :
    processMapping env conf torrents dirLocal dirRemote t =
      (none, t ++ Event.readDir dirLocal ::
        entries.flatMap (okEvents conf torrents dirLocal dirRemote)) := by
  have hnone := processMapping_nofail_entries env conf torrents dirLocal dirRemote hnofail
    entries (t ++ [Event.readDir dirLocal])
  have hrun := processMapping_ok_entries env conf torrents dirLocal dirRemote hdry entries
    (t ++ [Event.readDir dirLocal]) hnone
  rw [processMapping_listed env conf torrents dirLocal dirRemote entries t hlist, hrun]
  simp

theorem submission_eq (torrents : torrents) (dirRemote : String) :
    (fun e : DirEntry => (torrents.get e.Name).map (fun data =>
      (⟨dirRemote, base64.EncodeToString data, true⟩ : TorrentAddPayload))) =
      submission torrents dirRemote := by
  funext e
  cases hg : torrents.get e.Name <;> simp [submission, hg]

theorem successes_le_calls (t : Trace) : successes t ≤ (calls t).length := by
  induction t with
  | nil => simp [successes, calls]
  | cons e es ih =>
    cases e with
    | torrentAdd p r =>
      cases r with
      | none => simp [successes, calls]; omega
      | some err => simp [successes, calls]; omega
    | _ => simpa [successes, calls] using ih

theorem matches_cons (torrents : torrents) (e : DirEntry) (es : List DirEntry) :
    matches_ torrents (e :: es) =
      (if (torrents.get e.Name).isSome then 1 else 0) + matches_ torrents es := by
  cases hg : torrents.get e.Name <;> simp [matches_, List.filter_cons, hg]
  omega

theorem processMapping_entries_paced (env : Env) (conf : Conf) (torrents : torrents)
    (dirLocal dirRemote : String) (entries : List DirEntry) (t : Trace) :
    ∃ new,
      (iterEntries dirLocal (processMappingCb env conf torrents dirLocal dirRemote)
        entries ((), t)).2 = ((), t ++ new) ∧
      paced (time.seconds conf.confWaitSecs) false new = true ∧
      (calls new).length ≤ matches_ torrents entries ∧
      (conf.confDryRun = true → pauses new = []) := by
  induction entries generalizing t with
  | nil => exact ⟨[], by simp [iterEntries], by simp [paced], by simp [calls], fun _ => rfl⟩
  | cons e es ih =>
    cases hg : torrents.get e.Name with
    | none =>
      obtain ⟨new, h1, h2, h3, h4⟩ := ih t
      refine ⟨new, ?_, h2, ?_, h4⟩
      · simpa [iterEntries, processMappingCb, hg] using h1
      · rw [matches_cons]; omega
    | some data =>
      cases hd : conf.confDryRun with
      | true =>
        obtain ⟨new, h1, h2, h3, h4⟩ := ih (t ++ [addingRecord dirLocal dirRemote e data])
        refine ⟨addingRecord dirLocal dirRemote e data :: new, ?_, ?_, ?_, ?_⟩
        · simp only [addingRecord] at h1
          simp [iterEntries, processMappingCb, hg, hd, h1, addingRecord]
        · simpa [paced, addingRecord] using h2
        · rw [matches_cons]
          simp [calls, addingRecord, hg]
          omega
        · intro _
          simpa [pauses, addingRecord] using h4 hd
      | false =>
        cases hc : env.TorrentAdd (t ++ [addingRecord dirLocal dirRemote e data])
            (payloadOf dirRemote data) with
        | some err =>
          refine ⟨[addingRecord dirLocal dirRemote e data,
            Event.torrentAdd (payloadOf dirRemote data) (some err)], ?_, ?_, ?_, ?_⟩
          · simp only [addingRecord] at hc
            simp [iterEntries, processMappingCb, hg, hd, hc, addingRecord]
          · simp [paced, addingRecord]
          · rw [matches_cons]
            simp [calls, addingRecord, hg]
          · intro h
            simp at h
        | none =>
          obtain ⟨new, h1, h2, h3, h4⟩ := ih (t ++ [addingRecord dirLocal dirRemote e data,
            Event.torrentAdd (payloadOf dirRemote data) none,
            Event.sleep (time.seconds conf.confWaitSecs)])
          refine ⟨addingRecord dirLocal dirRemote e data ::
            Event.torrentAdd (payloadOf dirRemote data) none ::
            Event.sleep (time.seconds conf.confWaitSecs) :: new, ?_, ?_, ?_, ?_⟩
          · simp only [addingRecord] at hc h1
            simp [iterEntries, processMappingCb, hg, hd, hc, h1, addingRecord]
          · simpa [paced, addingRecord] using h2
          · rw [matches_cons]
            simp [calls, addingRecord, hg]
            omega
          · intro h
            simp at h

theorem time.seconds_in_range (secs : Int) (hlo : -9223372036 ≤ secs) (hhi : secs ≤ 9223372036) :
    time.seconds secs = secs * 1000000000 := by
  simp only [time.seconds, time.wrapInt64, time.Second]
  omega

theorem processMapping_accepted_entries (env : Env) (conf : Conf) (torrents : torrents)
    (dirLocal dirRemote : String) (hdry : conf.confDryRun = false)
    (pre : List DirEntry) (t : Trace)
    (hpre : ∀ i x data, pre[i]? = some x → torrents.get x.Name = some data →
      env.TorrentAdd (t ++ (pre.take i).flatMap (okEvents conf torrents dirLocal dirRemote) ++
        [addingRecord dirLocal dirRemote x data])
        ⟨dirRemote, base64.EncodeToString data, true⟩ = none) :
    iterEntries dirLocal (processMappingCb env conf torrents dirLocal dirRemote) pre ((), t) =
      (none, ((), t ++ pre.flatMap (okEvents conf torrents dirLocal dirRemote))) := by
  induction pre generalizing t with
  | nil => simp [iterEntries]
  | cons e es ih =>
    have htail : ∀ i x data, es[i]? = some x → torrents.get x.Name = some data →
        env.TorrentAdd ((t ++ okEvents conf torrents dirLocal dirRemote e) ++
          (es.take i).flatMap (okEvents conf torrents dirLocal dirRemote) ++
          [addingRecord dirLocal dirRemote x data])
          ⟨dirRemote, base64.EncodeToString data, true⟩ = none := by
      intro i x data hx hg
      have := hpre (i + 1) x data (by simpa using hx) hg
      simpa [List.append_assoc] using this
    have hrec := ih (t ++ okEvents conf torrents dirLocal dirRemote e) htail
    cases hg : torrents.get e.Name with
    | none =>
      simp only [okEvents, hg, List.append_nil] at hrec
      simp [iterEntries, processMappingCb, hg, hrec, okEvents]
    | some data =>
      have h0 := hpre 0 e data (by simp) hg
      simp only [List.take_zero, List.flatMap_nil, List.append_nil, addingRecord] at h0
      simp only [okEvents, hg, addingRecord, payloadOf] at hrec
      simp [iterEntries, processMappingCb, hg, hdry, h0, payloadOf, okEvents, addingRecord]
      simpa [List.append_assoc] using hrec

/-! ## Lemmas on `readTorrentFiles` -/

theorem loadEntry_declares {env : Env} {dir : String} {e : DirEntry} {name : String}
    {file : List Byte} :
    loadEntry env dir e = Except.ok (some (name, file)) ↔ declares env dir e name file := by
  unfold loadEntry declares
  cases hd : e.IsDir with
  | true => simp
  | false =>
    cases hr : env.ReadFile (filepath.Join [dir, e.Name]) with
    | error err => simp
    | ok f =>
      simp only [Bool.false_eq_true, if_false, true_and]
      cases hu : env.Unmarshal f with
      | error err =>
        constructor
        · intro h; cases err <;> cases h
        · rintro ⟨hf, inf, hinf, _⟩
          cases hf
          rw [hu] at hinf
          cases hinf
      | ok inf =>
        constructor
        · intro h
          cases h
          exact ⟨rfl, inf, hu, rfl⟩
        · rintro ⟨hf, inf1, hinf, hname⟩
          cases hf
          rw [hu] at hinf
          cases hinf
          simp [hname]

theorem loadEntry_broken {env : Env} {dir : String} {e : DirEntry} {err : GoError} :
    loadEntry env dir e = Except.error (Failure.error err) ↔ broken env dir e err := by
  unfold loadEntry broken
  cases hd : e.IsDir with
  | true => simp
  | false =>
    cases hr : env.ReadFile (filepath.Join [dir, e.Name]) with
    | error rerr =>
      simp only [Bool.false_eq_true, if_false, true_and]
      constructor
      · intro h
        cases h
        exact Or.inl ⟨rerr, rfl, rfl⟩
      · rintro (⟨r, hr1, rfl⟩ | ⟨f, d, hf, _, _⟩)
        · cases hr1; rfl
        · cases hf
    | ok f =>
      simp only [Bool.false_eq_true, if_false, true_and]
      cases hu : env.Unmarshal f with
      | error fl =>
        cases fl with
        | error derr =>
          constructor
          · intro h
            cases h
            exact Or.inr ⟨f, derr, rfl, hu, rfl⟩
          · rintro (⟨r, hr1, _⟩ | ⟨f1, d, hf, hd1, rfl⟩)
            · cases hr1
            · cases hf
              rw [hu] at hd1
              cases hd1
              rfl
        | panic =>
          constructor
          · intro h; cases h
          · rintro (⟨r, hr1, _⟩ | ⟨f1, d, hf, hd1, _⟩)
            · cases hr1
            · cases hf
              rw [hu] at hd1
              cases hd1
      | ok inf =>
        constructor
        · intro h; cases h
        · rintro (⟨r, hr1, _⟩ | ⟨f1, d, hf, hd1, _⟩)
          · cases hr1
          · cases hf
            rw [hu] at hd1
            cases hd1

theorem loadEntry_crashes {env : Env} {dir : String} {e : DirEntry} :
    loadEntry env dir e = Except.error Failure.panic ↔ crashes env dir e := by
  unfold loadEntry crashes
  cases hd : e.IsDir with
  | true => simp
  | false =>
    cases hr : env.ReadFile (filepath.Join [dir, e.Name]) with
    | error rerr =>
      simp only [Bool.false_eq_true, if_false, true_and]
      constructor
      · intro h; cases h
      · rintro ⟨f, hf, _⟩
        cases hf
    | ok f =>
      simp only [Bool.false_eq_true, if_false, true_and]
      cases hu : env.Unmarshal f with
      | error fl =>
        cases fl with
        | error derr =>
          constructor
          · intro h; cases h
          · rintro ⟨f1, hf, hp⟩
            cases hf
            rw [hu] at hp
            cases hp
        | panic =>
          constructor
          · intro _
            exact ⟨f, rfl, hu⟩
          · intro _
            rfl
      | ok inf =>
        constructor
        · intro h; cases h
        · rintro ⟨f1, hf, hp⟩
          cases hf
          rw [hu] at hp
          cases hp

theorem loadEntry_dir {env : Env} {dir : String} {e : DirEntry} :
    loadEntry env dir e = Except.ok none ↔ e.IsDir = true := by
  unfold loadEntry
  cases hd : e.IsDir with
  | true => simp
  | false =>
    cases hr : env.ReadFile (filepath.Join [dir, e.Name]) with
    | error err => simp
    | ok f =>
      simp only [Bool.false_eq_true, if_false]
      cases hu : env.Unmarshal f with
      | error fl => cases fl <;> simp
      | ok inf => simp

theorem loadEntry_error_file {env : Env} {dir : String} {e : DirEntry} {f : Failure}
    (h : loadEntry env dir e = Except.error f) : e.IsDir = false := by
  cases hd : e.IsDir with
  | false => rfl
  | true => simp [loadEntry, hd] at h

theorem readTorrentFilesCb_eq (env : Env) (dir : String) (e : DirEntry) (m : torrents)
    (t : Trace) :
    readTorrentFilesCb env e (filepath.Join [dir, e.Name]) (m, t) =
      match loadEntry env dir e with
      | Except.ok none => (none, (m, t))
      | Except.ok (some (name, file)) =>
        (none, (torrents.set m name file, t ++ [Event.readFile (filepath.Join [dir, e.Name])]))
      | Except.error f => (some f, (m, t ++ [Event.readFile (filepath.Join [dir, e.Name])])) := by
  unfold readTorrentFilesCb loadEntry
  cases hd : e.IsDir with
  | true => simp
  | false =>
    cases hr : env.ReadFile (filepath.Join [dir, e.Name]) with
    | error err => simp
    | ok f =>
      simp only [Bool.false_eq_true, if_false]
      cases hu : env.Unmarshal f with
      | error fl => cases fl <;> simp
      | ok inf => simp

theorem readEntries_ok (env : Env) (dir : String) (entries : List DirEntry) (m : torrents)
    (t : Trace) (h : ∀ e ∈ entries, ∃ r, loadEntry env dir e = Except.ok r) :
    iterEntries dir (readTorrentFilesCb env) entries (m, t) =
      (none, (indexed env dir m entries, t ++ readEvents dir entries)) := by
  induction entries generalizing m t with
  | nil => simp [iterEntries, indexed, readEvents]
  | cons e es ih =>
    obtain ⟨r, hr⟩ := h e (by simp)
    have hes : ∀ x ∈ es, ∃ r, loadEntry env dir x = Except.ok r :=
      fun x hx => h x (by simp [hx])
    cases r with
    | none =>
      have hd := loadEntry_dir.mp hr
      simp [iterEntries, readTorrentFilesCb_eq, hr, indexed, readEvents, hd, ih _ _ hes]
    | some nf =>
      obtain ⟨name, file⟩ := nf
      have hd := (loadEntry_declares.mp hr).1
      simp [iterEntries, readTorrentFilesCb_eq, hr, indexed, readEvents, hd, ih _ _ hes]

theorem readEvents_append (dir : String) (a b : List DirEntry) :
    readEvents dir (a ++ b) = readEvents dir a ++ readEvents dir b := by
  induction a with
  | nil => rfl
  | cons e es ih => cases hd : e.IsDir <;> simp [readEvents, hd, ih]

theorem readEntries_fail (env : Env) (dir : String) (pre : List DirEntry) (e : DirEntry)
    (post : List DirEntry) (f : Failure) (m : torrents) (t : Trace)
    (hpre : ∀ x ∈ pre, ∃ r, loadEntry env dir x = Except.ok r)
    (he : loadEntry env dir e = Except.error f) :
    iterEntries dir (readTorrentFilesCb env) (pre ++ e :: post) (m, t) =
      (some (passOn (filepath.Join [dir, e.Name]) f),
        (indexed env dir m pre, t ++ readEvents dir (pre ++ [e]))) := by
  have hd := loadEntry_error_file he
  rw [iterEntries_append, readEntries_ok env dir pre m t hpre]
  cases f <;>
    simp [iterEntries, readTorrentFilesCb_eq, he, readEvents_append, readEvents, hd, passOn]

theorem readEntries_none_iff (env : Env) (dir : String) (entries : List DirEntry)
    (m : torrents) (t : Trace) :
    (iterEntries dir (readTorrentFilesCb env) entries (m, t)).1 = none ↔
      ∀ e ∈ entries, ∃ r, loadEntry env dir e = Except.ok r := by
  induction entries generalizing m t with
  | nil => simp [iterEntries]
  | cons e es ih =>
    cases hl : loadEntry env dir e with
    | error f => cases f <;> simp [iterEntries, readTorrentFilesCb_eq, hl]
    | ok r =>
      cases r with
      | none => simp [iterEntries, readTorrentFilesCb_eq, hl, ih]
      | some nf =>
        obtain ⟨name, file⟩ := nf
        simp [iterEntries, readTorrentFilesCb_eq, hl, ih]

theorem first_broken (env : Env) (dir : String) (entries : List DirEntry)
    (h : ¬ ∀ e ∈ entries, ∃ r, loadEntry env dir e = Except.ok r) :
    ∃ pre e post f, entries = pre ++ e :: post ∧
      (∀ x ∈ pre, ∃ r, loadEntry env dir x = Except.ok r) ∧
      loadEntry env dir e = Except.error f := by
  induction entries with
  | nil => simp at h
  | cons e es ih =>
    cases hl : loadEntry env dir e with
    | error f => exact ⟨[], e, es, f, rfl, by simp, hl⟩
    | ok r =>
      have hes : ¬ ∀ x ∈ es, ∃ r, loadEntry env dir x = Except.ok r := by
        intro hall
        apply h
        intro x hx
        rcases List.mem_cons.mp hx with rfl | hx
        · exact ⟨r, hl⟩
        · exact hall x hx
      obtain ⟨pre, x, post, f, h1, h2, h3⟩ := ih hes
      refine ⟨e :: pre, x, post, f, by simp [h1], ?_, h3⟩
      intro y hy
      rcases List.mem_cons.mp hy with rfl | hy
      · exact ⟨r, hl⟩
      · exact h2 y hy

/-! ## Lemmas on the map `torrents` -/

theorem torrents.get_set (m : torrents) (k : String) (v : List Byte) (k1 : String) :
    (torrents.set m k v).get k1 = if k = k1 then some v else m.get k1 := by
  induction m with
  | nil => simp [torrents.set, torrents.get]
  | cons kv rest ih =>
    obtain ⟨k0, v0⟩ := kv
    by_cases h0 : k0 = k
    · subst h0
      by_cases h1 : k0 = k1 <;> simp [torrents.set, torrents.get, h1]
    · by_cases h1 : k = k1
      · subst h1
        simp [torrents.set, torrents.get, h0, ih]
      · by_cases h2 : k0 = k1
        · subst h2
          simp [torrents.set, torrents.get, h0, h1]
        · simp [torrents.set, torrents.get, h0, h1, h2, ih]

theorem torrents.mem_keys_set (m : torrents) (k : String) (v : List Byte) (k1 : String) :
    k1 ∈ (torrents.set m k v).map Prod.fst ↔ k1 = k ∨ k1 ∈ m.map Prod.fst := by
  induction m with
  | nil => simp [torrents.set]
  | cons kv rest ih =>
    obtain ⟨k0, v0⟩ := kv
    by_cases h0 : k0 = k
    · subst h0
      simp [torrents.set]
    · simp only [torrents.set, h0, if_false, List.map_cons, List.mem_cons, ih]
      tauto

theorem torrents.nodup_set (m : torrents) (k : String) (v : List Byte)
    (h : (m.map Prod.fst).Nodup) : ((torrents.set m k v).map Prod.fst).Nodup := by
  induction m with
  | nil => simp [torrents.set]
  | cons kv rest ih =>
    obtain ⟨k0, v0⟩ := kv
    simp only [List.map_cons, List.nodup_cons] at h
    by_cases h0 : k0 = k
    · subst h0
      simpa [torrents.set] using h
    · simp only [torrents.set, h0, if_false, List.map_cons, List.nodup_cons]
      refine ⟨?_, ih h.2⟩
      rw [torrents.mem_keys_set]
      rintro (h1 | h1)
      · exact h0 h1
      · exact h.1 h1

theorem torrents.get_none_of_not_mem (m : torrents) (k : String)
    (h : k ∉ m.map Prod.fst) : entriesFor m k = [] := by
  induction m with
  | nil => rfl
  | cons kv rest ih =>
    obtain ⟨k0, v0⟩ := kv
    simp only [List.map_cons, List.mem_cons, not_or] at h
    have h0 : ¬ k0 = k := fun hk => h.1 hk.symm
    simp only [entriesFor] at ih
    simp [entriesFor, List.filter_cons, h0, ih h.2]

theorem torrents.entriesFor_of_get (m : torrents) (k : String) (v : List Byte)
    (hn : (m.map Prod.fst).Nodup) (hg : m.get k = some v) : entriesFor m k = [(k, v)] := by
  induction m with
  | nil => simp [torrents.get] at hg
  | cons kv rest ih =>
    obtain ⟨k0, v0⟩ := kv
    simp only [List.map_cons, List.nodup_cons] at hn
    by_cases h0 : k0 = k
    · subst h0
      simp only [torrents.get, if_true, Option.some.injEq] at hg
      subst hg
      have := torrents.get_none_of_not_mem rest k0 hn.1
      simp only [entriesFor] at this
      simp [entriesFor, List.filter_cons, this]
    · simp only [torrents.get, h0, if_false] at hg
      have := ih hn.2 hg
      simp only [entriesFor] at this
      simp [entriesFor, List.filter_cons, h0, this]

theorem torrents.mem_keys_of_get (m : torrents) (k : String) (v : List Byte)
    (hg : m.get k = some v) : k ∈ m.map Prod.fst := by
  induction m with
  | nil => simp [torrents.get] at hg
  | cons kv rest ih =>
    obtain ⟨k0, v0⟩ := kv
    by_cases h0 : k0 = k
    · simp [h0]
    · simp only [torrents.get, h0, if_false] at hg
      simp [ih hg]

theorem indexed_append (env : Env) (dir : String) (m : torrents) (a b : List DirEntry) :
    indexed env dir m (a ++ b) = indexed env dir (indexed env dir m a) b := by
  induction a generalizing m with
  | nil => rfl
  | cons e es ih =>
    cases hl : loadEntry env dir e with
    | error err => simp [indexed, hl, ih]
    | ok r =>
      cases r with
      | none => simp [indexed, hl, ih]
      | some nf =>
        obtain ⟨name, file⟩ := nf
        simp [indexed, hl, ih]

theorem nodup_indexed (env : Env) (dir : String) (m : torrents) (es : List DirEntry)
    (h : (m.map Prod.fst).Nodup) : ((indexed env dir m es).map Prod.fst).Nodup := by
  induction es generalizing m with
  | nil => simpa [indexed] using h
  | cons e es ih =>
    cases hl : loadEntry env dir e with
    | error err => simpa [indexed, hl] using ih m h
    | ok r =>
      cases r with
      | none => simpa [indexed, hl] using ih m h
      | some nf =>
        obtain ⟨name, file⟩ := nf
        simpa [indexed, hl] using ih _ (torrents.nodup_set m name file h)

theorem get_indexed_of_not_declared (env : Env) (dir : String) (m : torrents)
    (es : List DirEntry) (name : String)
    (h : ∀ x ∈ es, ∀ file, loadEntry env dir x ≠ Except.ok (some (name, file))) :
    (indexed env dir m es).get name = m.get name := by
  induction es generalizing m with
  | nil => rfl
  | cons e es ih =>
    have hes : ∀ x ∈ es, ∀ file, loadEntry env dir x ≠ Except.ok (some (name, file)) :=
      fun x hx => h x (by simp [hx])
    cases hl : loadEntry env dir e with
    | error err => simpa [indexed, hl] using ih m hes
    | ok r =>
      cases r with
      | none => simpa [indexed, hl] using ih m hes
      | some nf =>
        obtain ⟨n, f⟩ := nf
        have hne : n ≠ name := by
          intro hn
          subst hn
          exact h e (by simp) f hl
        simp only [indexed, hl]
        rw [ih _ hes, torrents.get_set]
        simp [hne]

theorem mem_keys_indexed (env : Env) (dir : String) (m : torrents) (es : List DirEntry)
    (k : String) (h : k ∈ (indexed env dir m es).map Prod.fst) :
    k ∈ m.map Prod.fst ∨ ∃ e ∈ es, ∃ file, loadEntry env dir e = Except.ok (some (k, file)) := by
  induction es generalizing m with
  | nil => exact Or.inl (by simpa [indexed] using h)
  | cons e es ih =>
    cases hl : loadEntry env dir e with
    | error err =>
      simp only [indexed, hl] at h
      rcases ih m h with h1 | ⟨x, hx, f, hf⟩
      · exact Or.inl h1
      · exact Or.inr ⟨x, by simp [hx], f, hf⟩
    | ok r =>
      cases r with
      | none =>
        simp only [indexed, hl] at h
        rcases ih m h with h1 | ⟨x, hx, f, hf⟩
        · exact Or.inl h1
        · exact Or.inr ⟨x, by simp [hx], f, hf⟩
      | some nf =>
        obtain ⟨n, f0⟩ := nf
        simp only [indexed, hl] at h
        rcases ih _ h with h1 | ⟨x, hx, f, hf⟩
        · rcases (torrents.mem_keys_set m n f0 k).mp h1 with h2 | h2
          · subst h2
            exact Or.inr ⟨e, by simp, f0, hl⟩
          · exact Or.inl h2
        · exact Or.inr ⟨x, by simp [hx], f, hf⟩

theorem get_indexed_last (env : Env) (dir : String) (m : torrents)
    (pre : List DirEntry) (e : DirEntry) (post : List DirEntry) (name : String)
    (file : List Byte) (he : loadEntry env dir e = Except.ok (some (name, file)))
    (hpost : ∀ x ∈ post, ∀ file1, loadEntry env dir x ≠ Except.ok (some (name, file1))) :
    (indexed env dir m (pre ++ e :: post)).get name = some file := by
  rw [indexed_append]
  simp only [indexed, he]
  rw [get_indexed_of_not_declared env dir _ post name hpost, torrents.get_set]
  simp

theorem readTorrentFiles_listed (env : Env) (dir : String) (entries : List DirEntry)
    (t : Trace) (hlist : env.ReadDir dir = Except.ok entries) :
    readTorrentFiles env dir t =
      ((iterEntries dir (readTorrentFilesCb env) entries
          (([] : torrents), t ++ [Event.readDir dir])).2.1,
        (iterEntries dir (readTorrentFilesCb env) entries
          (([] : torrents), t ++ [Event.readDir dir])).1,
        (iterEntries dir (readTorrentFilesCb env) entries
          (([] : torrents), t ++ [Event.readDir dir])).2.2) := by
  simp [readTorrentFiles, iterDir, hlist]

theorem exists_last_declaring (env : Env) (dir : String) (name : String)
    (entries : List DirEntry)
    (h : ∃ e ∈ entries, ∃ file, declares env dir e name file) :
    ∃ pre e post file, entries = pre ++ e :: post ∧ declares env dir e name file ∧
      ∀ x ∈ post, ∀ file1, ¬ declares env dir x name file1 := by
  induction entries with
  | nil => simp at h
  | cons a as ih =>
    by_cases hrest : ∃ e ∈ as, ∃ file, declares env dir e name file
    · obtain ⟨pre, e, post, file, h1, h2, h3⟩ := ih hrest
      exact ⟨a :: pre, e, post, file, by simp [h1], h2, h3⟩
    · obtain ⟨e, he, file, hf⟩ := h
      rcases List.mem_cons.mp he with rfl | he
      · refine ⟨[], e, as, file, rfl, hf, ?_⟩
        intro x hx file1 hd
        exact hrest ⟨x, hx, file1, hd⟩
      · exact absurd ⟨e, he, file, hf⟩ hrest

theorem loaded_of_not_broken (env : Env) (dir : String) (e : DirEntry)
    (h : ∀ err, ¬ broken env dir e err) (hc : ¬ crashes env dir e) :
    ∃ r, loadEntry env dir e = Except.ok r := by
  cases hl : loadEntry env dir e with
  | error f =>
    cases f with
    | error err => exact absurd (loadEntry_broken.mp hl) (h err)
    | panic => exact absurd (loadEntry_crashes.mp hl) hc
  | ok r => exact ⟨r, rfl⟩

theorem fine_of_loaded (env : Env) (dir : String) (e : DirEntry)
    (h : ∃ r, loadEntry env dir e = Except.ok r) :
    (∀ err, ¬ broken env dir e err) ∧ ¬ crashes env dir e := by
  obtain ⟨r, hr⟩ := h
  constructor
  · intro err hb
    rw [loadEntry_broken.mpr hb] at hr
    cases hr
  · intro hc
    rw [loadEntry_crashes.mpr hc] at hr
    cases hr

theorem dirsListed_readEvents (dir : String) (entries : List DirEntry) :
    dirsListed (readEvents dir entries) = [] := by
  induction entries with
  | nil => rfl
  | cons x xs ih => cases hd : x.IsDir <;> simp [readEvents, hd, dirsListed, ih]

theorem readTorrentFiles_stops (env : Env) (dir : String) (pre : List DirEntry)
    (e : DirEntry) (post : List DirEntry) (f : Failure) (t : Trace)
    (hlist : env.ReadDir dir = Except.ok (pre ++ e :: post))
    (hpre : ∀ x ∈ pre, ∃ r, loadEntry env dir x = Except.ok r)
    (he : loadEntry env dir e = Except.error f) :
    readTorrentFiles env dir t =
      (indexed env dir [] pre, some (passOn (filepath.Join [dir, e.Name]) f),
        t ++ [Event.readDir dir] ++ readEvents dir (pre ++ [e])) := by
  simp only [readTorrentFiles, iterDir, hlist]
  rw [readEntries_fail env dir pre e post f [] (t ++ [Event.readDir dir]) hpre he]

theorem calls_readEvents (dir : String) (entries : List DirEntry) :
    calls (readEvents dir entries) = [] ∧ filesRead (readEvents dir entries) =
      (entries.filter (fun e => !e.IsDir)).map (fun e => filepath.Join [dir, e.Name]) := by
  induction entries with
  | nil => simp [readEvents, calls, filesRead]
  | cons e es ih =>
    cases hd : e.IsDir <;> simp [readEvents, hd, calls, filesRead, ih, List.filter_cons]

/-! ## The claims -/

/-- C7: `mappings.Set(value)` returns an error exactly when `value` has no
`;`, and then leaves the list as it was; otherwise it returns `nil` and appends
one mapping whose `local` is the text before the first `;` (so it has no `;`)
and whose `remote` is all the text after it, so that
`local ++ ";" ++ remote = value`, the earlier mappings staying in place. -/
theorem mappings_Set_spec (m : mappings) (value : String) :
    ((mappings.Set m value).1 ≠ none ↔ ';' ∉ value.data) ∧
    (';' ∉ value.data →
      mappings.Set m value = (some (GoError.errorf "invalid mapping %q" [value]), m)) ∧
    (';' ∈ value.data → ∃ l r : String,
      mappings.Set m value = (none, m ++ [⟨l, r⟩]) ∧ ';' ∉ l.data ∧
        l ++ ";" ++ r = value) := by
  cases hc : strings.cut ';' value.data with
  | none =>
    have hno : ';' ∉ value.data := strings.cut_none.mp hc
    have hset : mappings.Set m value =
        (some (GoError.errorf "invalid mapping %q" [value]), m) := by
      simp [mappings.Set, strings.SplitN, strings.genSplit, hc]
    refine ⟨?_, fun _ => hset, fun h => absurd h hno⟩
    simp [hset, hno]
  | some p =>
    obtain ⟨b, a⟩ := p
    obtain ⟨h1, h2⟩ := strings.cut_some hc
    have hmem : ';' ∈ value.data := by rw [h1]; simp
    have hset : mappings.Set m value = (none, m ++ [⟨String.mk b, String.mk a⟩]) := by
      simp [mappings.Set, strings.SplitN, strings.genSplit, hc]
    refine ⟨?_, fun h => absurd hmem h, fun _ => ⟨String.mk b, String.mk a, hset, h2, ?_⟩⟩
    · simp [hset, hmem]
    · apply String.ext
      simp [h1]

/-- C7, at `a;b;c` after one earlier mapping and at `abc`. -/
theorem mappings_Set_spec_witness :
    mappings.Set [⟨"x", "y"⟩] "a;b;c" = (none, [⟨"x", "y"⟩, ⟨"a", "b;c"⟩]) ∧
    mappings.Set [⟨"x", "y"⟩] "abc" =
      (some (GoError.errorf "invalid mapping %q" ["abc"]), [⟨"x", "y"⟩]) :=
  ⟨by decide, ((mappings_Set_spec [⟨"x", "y"⟩] "abc").2.1 (by decide))⟩


/-- C10, as the code has it: when listing fails `iterDir` returns the listing
error and invokes the callback on nothing; when listing succeeds it invokes the
callback once per listed entry, in listing order, with the entry and
`filepath.Join(dir, entry name)`, up to the first invocation that does not
return `nil`; if that invocation returns an error, `iterDir` returns the error
wrapped as `"%q: %w"` with that entry's path, and if it panics the panic passes
through `iterDir`; either way the callback is invoked on no later entry; `iterDir`
returns `nil` exactly when listing succeeded and every invocation returned
`nil`.  For a `dir` that is not empty the path is absolute exactly when `dir`
is. -/
theorem iterDir_spec {γ : Type} (env : Env) (dir : String)
    (cb : DirEntry → String → γ × Trace → Option Failure × (γ × Trace))
    (s : γ × Trace) :
    (∀ err, env.ReadDir dir = Except.error err →
      iterDir env dir cb s = (some (Failure.error err), (s.1, s.2 ++ [Event.readDir dir]))) ∧
    (∀ entries, env.ReadDir dir = Except.ok entries →
      ((∀ i, i < entries.length →
          returned dir cb entries (s.1, s.2 ++ [Event.readDir dir]) i = none) →
        iterDir env dir cb s =
          (none, invoked dir cb entries (s.1, s.2 ++ [Event.readDir dir]))) ∧
      (∀ k err,
        (∀ i, i < k → returned dir cb entries (s.1, s.2 ++ [Event.readDir dir]) i = none) →
        returned dir cb entries (s.1, s.2 ++ [Event.readDir dir]) k =
          some (Failure.error err) →
        ∃ e, entries[k]? = some e ∧
          iterDir env dir cb s =
            (some (Failure.error (GoError.wrapf "%q: %w" [filepath.Join [dir, e.Name]] err)),
              invoked dir cb (entries.take (k + 1)) (s.1, s.2 ++ [Event.readDir dir]))) ∧
      (∀ k,
        (∀ i, i < k → returned dir cb entries (s.1, s.2 ++ [Event.readDir dir]) i = none) →
        returned dir cb entries (s.1, s.2 ++ [Event.readDir dir]) k = some Failure.panic →
        iterDir env dir cb s =
          (some Failure.panic,
            invoked dir cb (entries.take (k + 1)) (s.1, s.2 ++ [Event.readDir dir])))) ∧
    ((iterDir env dir cb s).1 = none ↔
      ∃ entries, env.ReadDir dir = Except.ok entries ∧
        ∀ i, i < entries.length →
          returned dir cb entries (s.1, s.2 ++ [Event.readDir dir]) i = none) ∧
    (∀ name, dir ≠ "" →
      filepath.IsAbs (filepath.Join [dir, name]) = filepath.IsAbs dir) := by
  refine ⟨?_, ?_, ?_, ?_⟩
  · intro err h
    simp [iterDir, h]
  · intro entries h
    refine ⟨fun hall => ?_, fun k err hk herr => ?_, fun k hk hp => ?_⟩
    · simp only [iterDir, h]
      exact iterEntries_ok dir cb entries _ hall
    · obtain ⟨e, he, hrun⟩ := iterEntries_fail dir cb entries _ k err hk herr
      exact ⟨e, he, by simp only [iterDir, h]; exact hrun⟩
    · simp only [iterDir, h]
      exact iterEntries_panic dir cb entries _ k hk hp
  · cases h : env.ReadDir dir with
    | error err => simp [iterDir, h]
    | ok entries =>
      simp only [iterDir, h]
      constructor
      · intro hnone
        exact ⟨entries, rfl, iterEntries_none dir cb entries _ hnone⟩
      · rintro ⟨es, hes, hall⟩
        cases hes
        rw [iterEntries_ok dir cb entries _ hall]
  · intro name hdir
    apply filepath.Join_isAbs_iff
    intro hd
    apply hdir
    apply String.ext
    simpa using hd

/-- C10, in the world of the scenario with a callback that fails on
`B.torrent`: the callback is invoked on `A.torrent` and `B.torrent`, not on the
entry after them, and the error is wrapped with the path of `B.torrent`; with
a callback that panics on `B.torrent` the panic passes through, after the same
two invocations. -/
theorem iterDir_spec_witness :
    iterDir scenarioEnv "torrents" (recordCb ["B.torrent"] []) ([], []) =
      (some (Failure.error (GoError.wrapf "%q: %w" ["torrents/B.torrent"]
        (GoError.external "callback failed"))),
        ([(⟨"A.torrent", false⟩, "torrents/A.torrent"),
          (⟨"B.torrent", false⟩, "torrents/B.torrent")], [Event.readDir "torrents"])) ∧
    iterDir scenarioEnv "torrents" (recordCb [] ["B.torrent"]) ([], []) =
      (some Failure.panic,
        ([(⟨"A.torrent", false⟩, "torrents/A.torrent"),
          (⟨"B.torrent", false⟩, "torrents/B.torrent")], [Event.readDir "torrents"])) := by
  obtain ⟨e, he, hrun⟩ := (iterDir_spec scenarioEnv "torrents" (recordCb ["B.torrent"] [])
    ([], [])).2.1 _ rfl |>.2.1 1 (GoError.external "callback failed")
    (by intro i hi; interval_cases i; decide) (by decide)
  have hp := (iterDir_spec scenarioEnv "torrents" (recordCb [] ["B.torrent"])
    ([], [])).2.1 _ rfl |>.2.2 1 (by intro i hi; interval_cases i; decide) (by decide)
  have : e = ⟨"B.torrent", false⟩ := by
    have h2 : (some ⟨"B.torrent", false⟩ : Option DirEntry) = some e := he
    exact (Option.some.inj h2).symm
  subst this
  rw [hrun, hp]
  decide

/-- C10 as stated fails: for the relative directory `torrents` the path
`iterDir` passes to the callback is `torrents/A.torrent`, which is not an
absolute path. -/
theorem iterDir_path_not_absolute :
    iterDir scenarioEnv "torrents" (recordCb [] []) ([], []) =
      (none, ([(⟨"A.torrent", false⟩, "torrents/A.torrent"),
        (⟨"B.torrent", false⟩, "torrents/B.torrent"),
        (⟨"sub", true⟩, "torrents/sub")], [Event.readDir "torrents"])) ∧
    filepath.IsAbs "torrents/A.torrent" = false := by
  decide

/-- C1: in a real run (dry-run off) over a listing of `dirLocal`, with a client
that never fails, `processMapping` returns no error and the `TorrentAdd` calls
it makes are, in listing order, one per listed entry whose name is a key of the
index and none for any other entry; the call for an entry carries
`DownloadDir = dirRemote`, `Paused = true` and as `MetaInfo` the standard
base64 encoding of the bytes the index holds under the entry's name, which
decodes to those bytes. -/
theorem processMapping_submits (env : Env) (conf : Conf) (torrents : torrents)
    (dirLocal dirRemote : String) (entries : List DirEntry) (t : Trace)
    (hdry : conf.confDryRun = false)
    (hlist : env.ReadDir dirLocal = Except.ok entries)
    (hnofail : ∀ t1 p, env.TorrentAdd t1 p = none) :
    (processMapping env conf torrents dirLocal dirRemote t).1 = none ∧
    ∃ new, (processMapping env conf torrents dirLocal dirRemote t).2 = t ++ new ∧
      calls new = entries.filterMap (fun e =>
        (torrents.get e.Name).map (fun data =>
          (⟨dirRemote, base64.EncodeToString data, true⟩ : TorrentAddPayload))) ∧
      (calls new).length = matches_ torrents entries ∧
      ∀ data, base64.DecodeString (base64.EncodeToString data) = some data := by
  have hpm := processMapping_nofail_run env conf torrents dirLocal dirRemote entries t hdry
    hlist hnofail
  have hcalls := (calls_okEvents conf torrents dirLocal dirRemote entries).1
  refine ⟨by rw [hpm], Event.readDir dirLocal ::
    entries.flatMap (okEvents conf torrents dirLocal dirRemote), by rw [hpm], ?_, ?_, ?_⟩
  · rw [submission_eq]
    simpa [calls] using hcalls
  · rw [← length_filterMap_submission torrents dirRemote entries, ← hcalls]
    simp [calls]
  · intro data
    exact base64.decode_encode data

/-- C1, in the scenario of the specification: index `Movie1`, `Movie2`; local
entries `Movie1`, `Movie3`; mapping `/data/old` to `/data/new`.  Exactly one
submission, for `Movie1`, with target `/data/new`. -/
theorem processMapping_submits_witness :
    (processMapping scenarioEnv scenarioConf scenarioIndex "/data/old" "/data/new" []).1 = none ∧
    calls (processMapping scenarioEnv scenarioConf scenarioIndex "/data/old" "/data/new" []).2 =
      [⟨"/data/new", base64.EncodeToString (torrentFile "Movie1"), true⟩] := by
  obtain ⟨h1, new, h2, h3, _⟩ := processMapping_submits scenarioEnv scenarioConf scenarioIndex
    "/data/old" "/data/new" [⟨"Movie1", true⟩, ⟨"Movie3", false⟩] [] rfl rfl (fun _ _ => rfl)
  refine ⟨h1, ?_⟩
  rw [h2, calls_append, h3]
  decide

/-- C2: in a dry run over a listing of `dirLocal`, `processMapping` returns no
error, makes no `TorrentAdd` call and no pause, and writes as many "adding
torrent" log records as there are listed entries whose name is a key of the
index, which is the number of submissions of a real run of the same inputs
with a client that never fails. -/
theorem processMapping_dry_run (env : Env) (conf : Conf) (torrents : torrents)
    (dirLocal dirRemote : String) (entries : List DirEntry) (t : Trace)
    (hdry : conf.confDryRun = true)
    (hlist : env.ReadDir dirLocal = Except.ok entries) :
    (processMapping env conf torrents dirLocal dirRemote t).1 = none ∧
    ∃ new, (processMapping env conf torrents dirLocal dirRemote t).2 = t ++ new ∧
      calls new = [] ∧ pauses new = [] ∧
      addingLogs new = matches_ torrents entries ∧
      ∀ (env1 : Env) (conf1 : Conf) (t1 : Trace), conf1.confDryRun = false →
        env1.ReadDir dirLocal = Except.ok entries →
        (∀ t2 p, env1.TorrentAdd t2 p = none) →
        ∃ new1, (processMapping env1 conf1 torrents dirLocal dirRemote t1).2 = t1 ++ new1 ∧
          (calls new1).length = addingLogs new := by
  have hrun := processMapping_dry_entries env conf torrents dirLocal dirRemote hdry entries
    (t ++ [Event.readDir dirLocal])
  have hpm := processMapping_listed env conf torrents dirLocal dirRemote entries t hlist
  rw [hrun] at hpm
  obtain ⟨hc, hp, ha⟩ := calls_dryEvents torrents dirLocal dirRemote entries
  have hlogs : addingLogs (Event.readDir dirLocal ::
      entries.flatMap (dryEvents torrents dirLocal dirRemote)) = matches_ torrents entries := by
    simpa [addingLogs] using ha
  refine ⟨by rw [hpm], Event.readDir dirLocal ::
    entries.flatMap (dryEvents torrents dirLocal dirRemote), by rw [hpm]; simp, ?_, ?_, hlogs, ?_⟩
  · simpa [calls] using hc
  · simpa [pauses] using hp
  · intro env1 conf1 t1 hdry1 hlist1 hnofail1
    have hpm1 := processMapping_nofail_run env1 conf1 torrents dirLocal dirRemote entries t1
      hdry1 hlist1 hnofail1
    have hcalls := (calls_okEvents conf1 torrents dirLocal dirRemote entries).1
    refine ⟨Event.readDir dirLocal ::
      entries.flatMap (okEvents conf1 torrents dirLocal dirRemote), by rw [hpm1], ?_⟩
    rw [hlogs, ← length_filterMap_submission torrents dirRemote entries, ← hcalls]
    simp [calls]

/-- C2, in the scenario of the specification as a dry run: no error, the one
log record of `Movie1`, no call and no pause. -/
theorem processMapping_dry_run_witness :
    (processMapping scenarioEnv scenarioDryConf scenarioIndex "/data/old" "/data/new" []).1 =
      none ∧
    (processMapping scenarioEnv scenarioDryConf scenarioIndex "/data/old" "/data/new" []).2 =
      [Event.readDir "/data/old",
        addingRecord "/data/old" "/data/new" ⟨"Movie1", true⟩ (torrentFile "Movie1")] ∧
    matches_ scenarioIndex [⟨"Movie1", true⟩, ⟨"Movie3", false⟩] = 1 :=
  ⟨(processMapping_dry_run scenarioEnv scenarioDryConf scenarioIndex "/data/old" "/data/new"
    [⟨"Movie1", true⟩, ⟨"Movie3", false⟩] [] rfl rfl).1, by decide, by decide⟩

/-- The pauses of `processMapping`: in every run each successful
`TorrentAdd` call is followed at once by one `time.Sleep` and every
`time.Sleep` follows at once a successful `TorrentAdd` call, so the number of
pauses is the number of successful calls, at most the number of listed entries
whose name is a key of the index, and a dry run pauses never; the argument of
each `time.Sleep` is `time.Second * time.Duration(confWaitSecs)`, which is
`confWaitSecs` seconds when `confWaitSecs` is between -9223372036 and
9223372036. -/
theorem processMapping_pauses (env : Env) (conf : Conf) (torrents : torrents)
    (dirLocal dirRemote : String) (t : Trace) :
    ∃ new, (processMapping env conf torrents dirLocal dirRemote t).2 = t ++ new ∧
      paced (time.seconds conf.confWaitSecs) false new = true ∧
      pauses new = List.replicate (successes new) (time.seconds conf.confWaitSecs) ∧
      (pauses new).length = successes new ∧
      (∀ entries, env.ReadDir dirLocal = Except.ok entries →
        (calls new).length ≤ matches_ torrents entries) ∧
      (conf.confDryRun = true → pauses new = []) ∧
      (-9223372036 ≤ conf.confWaitSecs → conf.confWaitSecs ≤ 9223372036 →
        time.seconds conf.confWaitSecs = conf.confWaitSecs * 1000000000) := by
  cases hlist : env.ReadDir dirLocal with
  | error err =>
    refine ⟨[Event.readDir dirLocal], by simp [processMapping, iterDir, hlist],
      by simp [paced], by simp [pauses, successes], by simp [pauses, successes],
      fun entries h => by simp at h, fun _ => by simp [pauses],
      fun hlo hhi => time.seconds_in_range _ hlo hhi⟩
  | ok entries =>
    obtain ⟨new, h1, h2, h3, h4⟩ := processMapping_entries_paced env conf torrents dirLocal
      dirRemote entries (t ++ [Event.readDir dirLocal])
    have hp : paced (time.seconds conf.confWaitSecs) false (Event.readDir dirLocal :: new) =
        true := by
      simpa [paced] using h2
    have hpa := paced_pauses _ _ _ hp
    simp only [Bool.false_eq_true, if_false, Nat.add_zero] at hpa
    refine ⟨Event.readDir dirLocal :: new, ?_, hp, hpa, by rw [hpa]; simp, ?_, ?_,
      fun hlo hhi => time.seconds_in_range _ hlo hhi⟩
    · rw [processMapping_listed env conf torrents dirLocal dirRemote entries t hlist, h1]
      simp
    · intro es hes
      cases hes
      simpa [calls] using h3
    · intro hd
      simpa [pauses] using h4 hd

/-- C9 at `confWaitSecs = 9223372037`: the one successful call of the scenario
is followed by `time.Sleep` of a negative duration, -9223372036709551616
nanoseconds, not by a pause of 9223372037 seconds: the multiplication by
`time.Second` overflows `int64`. -/
theorem processMapping_pause_overflows :
    pauses (processMapping scenarioEnv scenarioLongWaitConf scenarioIndex
      "/data/old" "/data/new" []).2 = [-9223372036709551616] ∧
    (-9223372036709551616 : Int) ≠ scenarioLongWaitConf.confWaitSecs * 1000000000 := by
  decide

/-- The pauses of `processMapping` in the scenario of the specification: one
successful call, one pause of five seconds right after it. -/
theorem processMapping_pauses_witness :
    (processMapping scenarioEnv scenarioConf scenarioIndex "/data/old" "/data/new" []).2 =
      [Event.readDir "/data/old",
        addingRecord "/data/old" "/data/new" ⟨"Movie1", true⟩ (torrentFile "Movie1"),
        Event.torrentAdd ⟨"/data/new", base64.EncodeToString (torrentFile "Movie1"), true⟩ none,
        Event.sleep 5000000000] ∧
    time.seconds scenarioConf.confWaitSecs = scenarioConf.confWaitSecs * 1000000000 := by
  obtain ⟨new, _, _, _, _, _, _, h⟩ := processMapping_pauses scenarioEnv scenarioConf
    scenarioIndex "/data/old" "/data/new" []
  exact ⟨by decide, h (by decide) (by decide)⟩

/-- C6: in a real run over the listing `pre ++ e :: post` of `dirLocal`, if
the client accepts every entry of `pre` whose name is a key of the index and
fails on `e`, whose name is a key of the index too, then `processMapping`
returns the client's error wrapped with the quoted path of `e`; the calls it
makes are those of the matching entries of `pre`, each followed by its pause,
and then the failing call, with nothing after it: no pause, and no event of an
entry of `post`; and the loop of `main` ends there with `log.Fatalf`,
processing none of the later mappings.  If listing `dirLocal` fails,
`processMapping` returns the listing error and makes no call. -/
theorem processMapping_fails (env : Env) (conf : Conf) (torrents : torrents)
    (dirLocal dirRemote : String) (pre : List DirEntry) (e : DirEntry) (post : List DirEntry)
    (data : List Byte) (cerr : GoError) (t : Trace)
    (hdry : conf.confDryRun = false)
    (hlist : env.ReadDir dirLocal = Except.ok (pre ++ e :: post))
    (hpre : ∀ i x data1, pre[i]? = some x → torrents.get x.Name = some data1 →
      env.TorrentAdd (t ++ [Event.readDir dirLocal] ++
        (pre.take i).flatMap (okEvents conf torrents dirLocal dirRemote) ++
        [addingRecord dirLocal dirRemote x data1])
        ⟨dirRemote, base64.EncodeToString data1, true⟩ = none)
    (hget : torrents.get e.Name = some data)
    (hfail : env.TorrentAdd (t ++ [Event.readDir dirLocal] ++
        pre.flatMap (okEvents conf torrents dirLocal dirRemote) ++
        [addingRecord dirLocal dirRemote e data])
        ⟨dirRemote, base64.EncodeToString data, true⟩ = some cerr) :
    processMapping env conf torrents dirLocal dirRemote t =
      (some (Failure.error (GoError.wrapf "%q: %w" [filepath.Join [dirLocal, e.Name]] cerr)),
        t ++ [Event.readDir dirLocal] ++
          pre.flatMap (okEvents conf torrents dirLocal dirRemote) ++
          [addingRecord dirLocal dirRemote e data,
            Event.torrentAdd ⟨dirRemote, base64.EncodeToString data, true⟩ (some cerr)]) ∧
    calls (processMapping env conf torrents dirLocal dirRemote t).2 =
      calls t ++ (pre ++ [e]).filterMap (submission torrents dirRemote) ∧
    (calls (processMapping env conf torrents dirLocal dirRemote t).2).length =
      (calls t).length + matches_ torrents pre + 1 ∧
    (pauses (processMapping env conf torrents dirLocal dirRemote t).2).length =
      (pauses t).length + matches_ torrents pre ∧
    (∀ (m : mapping) (rest : List mapping), m.local_ = dirLocal → m.remote = dirRemote →
      mainLoop env conf torrents (m :: rest) t =
        (processMapping env conf torrents dirLocal dirRemote t).2 ++
          [Event.fatalf "error processing mapping %q -> %q: %v"
            [Arg.str dirLocal, Arg.str dirRemote,
              Arg.err (GoError.wrapf "%q: %w" [filepath.Join [dirLocal, e.Name]] cerr)]]) ∧
    (∀ (env1 : Env) (lerr : GoError), env1.ReadDir dirLocal = Except.error lerr →
      processMapping env1 conf torrents dirLocal dirRemote t =
        (some (Failure.error lerr), t ++ [Event.readDir dirLocal])) := by
  have hrunpre := processMapping_accepted_entries env conf torrents dirLocal dirRemote hdry pre
    (t ++ [Event.readDir dirLocal]) hpre
  have hpm : processMapping env conf torrents dirLocal dirRemote t =
      (some (Failure.error (GoError.wrapf "%q: %w" [filepath.Join [dirLocal, e.Name]] cerr)),
        t ++ [Event.readDir dirLocal] ++
          pre.flatMap (okEvents conf torrents dirLocal dirRemote) ++
          [addingRecord dirLocal dirRemote e data,
            Event.torrentAdd ⟨dirRemote, base64.EncodeToString data, true⟩ (some cerr)]) := by
    rw [processMapping_listed env conf torrents dirLocal dirRemote _ t hlist,
      iterEntries_append, hrunpre]
    have hfail1 := hfail
    simp [addingRecord] at hfail1
    simp [iterEntries, processMappingCb, hget, hdry, payloadOf, hfail1, addingRecord]
  obtain ⟨hc1, hc2, _⟩ := calls_okEvents conf torrents dirLocal dirRemote pre
  have hcalls : calls (processMapping env conf torrents dirLocal dirRemote t).2 =
      calls t ++ (pre ++ [e]).filterMap (submission torrents dirRemote) := by
    rw [hpm]
    simp [calls_append, hc1, calls, addingRecord, submission, hget, List.filterMap_append]
  refine ⟨hpm, hcalls, ?_, ?_, ?_, ?_⟩
  · rw [hcalls]
    simp [List.filterMap_append, length_filterMap_submission, submission, hget]
    omega
  · rw [hpm]
    simp [pauses_append, hc2, pauses, addingRecord]
  · intro m rest hl hr
    subst hl hr
    simp [mainLoop, hpm]
  · intro env1 lerr hl
    simp [processMapping, iterDir, hl]

/-- C6, in a world whose client fails on its second call: the listing is
`Movie1`, `Movie3`, `Movie2`, `Movie1`; the call for `Movie1` succeeds and is
followed by its pause, the call for `Movie2` fails, and the last entry is not
submitted. -/
theorem processMapping_fails_witness :
    processMapping failingEnv scenarioConf scenarioIndex "/data/old" "/data/new" [] =
      (some (Failure.error (GoError.wrapf "%q: %w" ["/data/old/Movie2"]
        (GoError.external "rpc: connection refused"))),
      [Event.readDir "/data/old",
        addingRecord "/data/old" "/data/new" ⟨"Movie1", true⟩ (torrentFile "Movie1"),
        Event.torrentAdd ⟨"/data/new", base64.EncodeToString (torrentFile "Movie1"), true⟩ none,
        Event.sleep 5000000000,
        addingRecord "/data/old" "/data/new" ⟨"Movie2", true⟩ (torrentFile "Movie2"),
        Event.torrentAdd ⟨"/data/new", base64.EncodeToString (torrentFile "Movie2"), true⟩
          (some (GoError.external "rpc: connection refused"))]) := by
  have h := (processMapping_fails failingEnv scenarioConf scenarioIndex "/data/old" "/data/new"
    [⟨"Movie1", true⟩, ⟨"Movie3", false⟩] ⟨"Movie2", true⟩ [⟨"Movie1", true⟩]
    (torrentFile "Movie2") (GoError.external "rpc: connection refused") [] rfl rfl
    (by
      intro i x data1 hx hg
      match i, hx with
      | 0, hx =>
        have hx0 : x = ⟨"Movie1", true⟩ := by simpa using hx.symm
        subst hx0
        rfl
      | 1, hx =>
        have hx1 : x = ⟨"Movie3", false⟩ := by simpa using hx.symm
        subst hx1
        have hnone : scenarioIndex.get "Movie3" = none := by decide
        rw [hnone] at hg
        exact absurd hg (by simp))
    (by decide) (by decide)).1
  rw [h]
  decide

/-- C3, as the code has it: for a torrents directory whose entries that are
not directories can all be read and decoded, `readTorrentFiles` returns no
error; for each such file the index has an entry under the file's declared
`info.name`, holding the contents of the last file in listing order that
declares that name; so it holds the contents of that very file when no file
after it in the listing declares the same name. -/
theorem readTorrentFiles_indexes (env : Env) (dir : String) (entries : List DirEntry)
    (t : Trace)
    (hlist : env.ReadDir dir = Except.ok entries)
    (hvalid : ∀ e ∈ entries, e.IsDir = false → ∃ name file, declares env dir e name file) :
    (readTorrentFiles env dir t).2.1 = none ∧
    (∀ e ∈ entries, ∀ name file, declares env dir e name file →
      ∃ pre e1 post file1, entries = pre ++ e1 :: post ∧ declares env dir e1 name file1 ∧
        (∀ x ∈ post, ∀ file2, ¬ declares env dir x name file2) ∧
        (readTorrentFiles env dir t).1.get name = some file1) ∧
    (∀ pre e post name file, entries = pre ++ e :: post → declares env dir e name file →
      (∀ x ∈ post, ∀ file1, ¬ declares env dir x name file1) →
      (readTorrentFiles env dir t).1.get name = some file) := by
  have hall : ∀ e ∈ entries, ∃ r, loadEntry env dir e = Except.ok r := by
    intro e he
    cases hd : e.IsDir with
    | true => exact ⟨none, loadEntry_dir.mpr hd⟩
    | false =>
      obtain ⟨name, file, hdec⟩ := hvalid e he hd
      exact ⟨some (name, file), loadEntry_declares.mpr hdec⟩
  have hrun := readEntries_ok env dir entries [] (t ++ [Event.readDir dir]) hall
  have hrt := readTorrentFiles_listed env dir entries t hlist
  rw [hrun] at hrt
  have hlast : ∀ pre e post name file, entries = pre ++ e :: post →
      declares env dir e name file →
      (∀ x ∈ post, ∀ file1, ¬ declares env dir x name file1) →
      (readTorrentFiles env dir t).1.get name = some file := by
    intro pre e post name file hsplit hdec hpost
    rw [hrt, hsplit]
    exact get_indexed_last env dir [] pre e post name file (loadEntry_declares.mpr hdec)
      (fun x hx file1 hl => hpost x hx file1 (loadEntry_declares.mp hl))
  refine ⟨by rw [hrt], ?_, hlast⟩
  intro e he name file hdec
  obtain ⟨pre, e1, post, file1, hsplit, hdec1, hpost⟩ :=
    exists_last_declaring env dir name entries ⟨e, he, file, hdec⟩
  exact ⟨pre, e1, post, file1, hsplit, hdec1, hpost, hlast pre e1 post name file1 hsplit hdec1 hpost⟩

/-- C3, in the world of the scenario: `A.torrent` declares `Movie1`, no file
after it does, and the index holds its contents under `Movie1`. -/
theorem readTorrentFiles_indexes_witness :
    (readTorrentFiles scenarioEnv "torrents" []).2.1 = none ∧
    (readTorrentFiles scenarioEnv "torrents" []).1.get "Movie1" = some (torrentFile "Movie1") :=
  have h := readTorrentFiles_indexes scenarioEnv "torrents"
    [⟨"A.torrent", false⟩, ⟨"B.torrent", false⟩, ⟨"sub", true⟩] [] rfl
    (by
      intro e he hd
      simp only [List.mem_cons, List.mem_singleton, List.not_mem_nil, or_false] at he
      rcases he with rfl | rfl | rfl
      · exact ⟨"Movie1", torrentFile "Movie1", rfl, by decide, _, rfl, by decide⟩
      · exact ⟨"Movie2", torrentFile "Movie2", rfl, by decide, _, rfl, by decide⟩
      · exact absurd hd (by decide))
  ⟨h.1, h.2.2 [] ⟨"A.torrent", false⟩ [⟨"B.torrent", false⟩, ⟨"sub", true⟩] "Movie1"
    (torrentFile "Movie1") rfl ⟨rfl, by decide, _, rfl, by decide⟩
    (by
      intro x hx file1 hdec
      simp only [List.mem_cons, List.mem_singleton, List.not_mem_nil, or_false] at hx
      rcases hx with rfl | rfl
      · obtain ⟨_, hf, inf, hinf, hname⟩ := hdec
        have hf1 : file1 = torrentFile "Movie2" := by
          have : (Except.ok (torrentFile "Movie2") : Except GoError (List Byte)) =
              Except.ok file1 := hf
          exact (Except.ok.inj this).symm
        subst hf1
        have hinf1 : inf.Info.Name = "Movie2" := by
          have h2 : scenarioEnv.Unmarshal (torrentFile "Movie2") =
              bencode.Unmarshal (torrentFile "Movie2") := rfl
          rw [h2] at hinf
          have h3 : (bencode.Unmarshal (torrentFile "Movie2")).toOption.map
              (fun i => i.Info.Name) = some "Movie2" := by decide
          rw [hinf] at h3
          simpa [Except.toOption] using h3
        rw [hinf1] at hname
        exact absurd hname (by decide)
      · exact absurd hdec.1 (by decide))⟩

/-- C3 as stated fails: both files of the directory can be read and decoded,
`A.torrent` declares `Movie1`, and the index returned holds under `Movie1` not
the contents of `A.torrent` but those of `B.torrent`, which declares `Movie1`
too and comes after it. -/
theorem readTorrentFiles_overwrites :
    collisionEnv.ReadDir "torrents" = Except.ok [⟨"A.torrent", false⟩, ⟨"B.torrent", false⟩] ∧
    collisionEnv.ReadFile "torrents/A.torrent" =
      Except.ok (bencode.bytes "d4:infod4:name6:Movie1ee") ∧
    (collisionEnv.Unmarshal (bencode.bytes "d4:infod4:name6:Movie1ee")).toOption.map
      (fun inf => inf.Info.Name) = some "Movie1" ∧
    collisionEnv.ReadFile "torrents/B.torrent" = Except.ok (torrentFile "Movie1") ∧
    (collisionEnv.Unmarshal (torrentFile "Movie1")).toOption.map
      (fun inf => inf.Info.Name) = some "Movie1" ∧
    readTorrentFiles collisionEnv "torrents" [] =
      ([("Movie1", torrentFile "Movie1")], none,
        [Event.readDir "torrents", Event.readFile "torrents/A.torrent",
          Event.readFile "torrents/B.torrent"]) ∧
    torrentFile "Movie1" ≠ bencode.bytes "d4:infod4:name6:Movie1ee" := by
  decide

/-- C4, as the code has it: when `readTorrentFiles` returns no error and the file `e` is the last
in listing order to declare the name `name` (other files before it may declare
the same name), the index returned holds exactly one entry for `name`, and its
bytes are the contents of `e`. -/
theorem readTorrentFiles_last_wins (env : Env) (dir : String) (entries : List DirEntry)
    (t : Trace) (pre : List DirEntry) (e : DirEntry) (post : List DirEntry) (name : String)
    (file : List Byte)
    (hlist : env.ReadDir dir = Except.ok entries)
    (hok : (readTorrentFiles env dir t).2.1 = none)
    (hsplit : entries = pre ++ e :: post)
    (he : declares env dir e name file)
    (hpost : ∀ x ∈ post, ∀ file1, ¬ declares env dir x name file1) :
    entriesFor (readTorrentFiles env dir t).1 name = [(name, file)] ∧
    (readTorrentFiles env dir t).1.get name = some file := by
  have hrt := readTorrentFiles_listed env dir entries t hlist
  have hnone : (iterEntries dir (readTorrentFilesCb env) entries
      (([] : torrents), t ++ [Event.readDir dir])).1 = none := by
    rw [hrt] at hok
    exact hok
  have hall := (readEntries_none_iff env dir entries [] (t ++ [Event.readDir dir])).mp hnone
  rw [readEntries_ok env dir entries [] (t ++ [Event.readDir dir]) hall] at hrt
  have hget : (readTorrentFiles env dir t).1.get name = some file := by
    rw [hrt, hsplit]
    exact get_indexed_last env dir [] pre e post name file (loadEntry_declares.mpr he)
      (fun x hx file1 hl => hpost x hx file1 (loadEntry_declares.mp hl))
  refine ⟨torrents.entriesFor_of_get _ name file ?_ hget, hget⟩
  rw [hrt]
  exact nodup_indexed env dir [] entries (by simp)

/-- C4, in a world where `A.torrent` and after it `B.torrent` both declare
`Movie1`: the index has one entry for `Movie1`, with the contents of
`B.torrent`. -/
theorem readTorrentFiles_last_wins_witness :
    entriesFor (readTorrentFiles collisionEnv "torrents" []).1 "Movie1" =
      [("Movie1", torrentFile "Movie1")] ∧
    (readTorrentFiles collisionEnv "torrents" []).1.get "Movie1" = some (torrentFile "Movie1") :=
  readTorrentFiles_last_wins collisionEnv "torrents" [⟨"A.torrent", false⟩, ⟨"B.torrent", false⟩]
    [] [⟨"A.torrent", false⟩] ⟨"B.torrent", false⟩ [] "Movie1" (torrentFile "Movie1")
    rfl (by decide) rfl ⟨rfl, by decide, _, rfl, by decide⟩ (by simp)

/-- C4 as stated fails: `A.torrent` and `B.torrent` are valid files that both
declare `Movie1`, and `B.torrent` is the last of them in listing order; the
malformed `Abad.torrent` between them stops `readTorrentFiles`, which returns,
with its error, an index whose entry for `Movie1` holds the contents of
`A.torrent`, not of `B.torrent`. -/
theorem readTorrentFiles_partial_index :
    brokenEnv.ReadDir "torrents" =
      Except.ok [⟨"0sub", true⟩, ⟨"A.torrent", false⟩, ⟨"Abad.torrent", false⟩,
        ⟨"B.torrent", false⟩] ∧
    brokenEnv.ReadFile "torrents/A.torrent" =
      Except.ok (bencode.bytes "d4:infod4:name6:Movie1ee") ∧
    (brokenEnv.Unmarshal (bencode.bytes "d4:infod4:name6:Movie1ee")).toOption.map
      (fun inf => inf.Info.Name) = some "Movie1" ∧
    brokenEnv.ReadFile "torrents/B.torrent" = Except.ok (torrentFile "Movie1") ∧
    (brokenEnv.Unmarshal (torrentFile "Movie1")).toOption.map
      (fun inf => inf.Info.Name) = some "Movie1" ∧
    (readTorrentFiles brokenEnv "torrents" []).1 =
      [("Movie1", bencode.bytes "d4:infod4:name6:Movie1ee")] ∧
    (readTorrentFiles brokenEnv "torrents" []).2.1 =
      some (Failure.error (GoError.wrapf "%q: %w" ["torrents/Abad.torrent"]
        (GoError.wrapf "unmarshal torrent: %w" [] bencode.decodeError))) ∧
    torrentFile "Movie1" ≠ bencode.bytes "d4:infod4:name6:Movie1ee" := by
  decide

/-- C5, as the code has it: for a torrents directory that can be listed,
`readTorrentFiles` fails exactly when, for some listed entry that is not a
directory, `os.ReadFile` or `bencode.Unmarshal` returns an error or
`bencode.Unmarshal` panics (a directory is never such an entry).  At the first
such entry in listing order: if the failure is an error, `readTorrentFiles`
returns it wrapped by the callback and then with the quoted path of the entry,
and `main` ends with `log.Fatalf`; if `bencode.Unmarshal` panics, no error is
returned and `main` ends by the panic, with no `log.Fatalf`.  Either way the
files read are those before the entry and the entry, none after it, and `main`
lists no mapping directory and makes no `TorrentAdd` call.  So an error is
returned exactly when the first such entry fails by an error. -/
theorem readTorrentFiles_fail_fast (env : Env) (dir : String) (entries : List DirEntry)
    (t : Trace) (hlist : env.ReadDir dir = Except.ok entries) :
    ((readTorrentFiles env dir t).2.1 ≠ none ↔
      ∃ e ∈ entries, (∃ err, broken env dir e err) ∨ crashes env dir e) ∧
    (∀ e, e.IsDir = true → (∀ err, ¬ broken env dir e err) ∧ ¬ crashes env dir e) ∧
    (∀ pre e post, entries = pre ++ e :: post →
      (∀ x ∈ pre, (∀ err1, ¬ broken env dir x err1) ∧ ¬ crashes env dir x) →
      (∀ err, broken env dir e err →
        (readTorrentFiles env dir t).2.1 =
          some (Failure.error (GoError.wrapf "%q: %w" [filepath.Join [dir, e.Name]] err)) ∧
        (readTorrentFiles env dir t).2.2 =
          t ++ [Event.readDir dir] ++ readEvents dir (pre ++ [e]) ∧
        filesRead (readTorrentFiles env dir t).2.2 = filesRead t ++
          ((pre ++ [e]).filter (fun x => !x.IsDir)).map (fun x => filepath.Join [dir, x.Name]) ∧
        ∀ conf : Conf, conf.confTorrentsPath = dir → env.New = none →
          main env conf = [Event.readDir dir] ++ readEvents dir (pre ++ [e]) ++
            [Event.fatalf "read torrent files of %q: %v"
              [Arg.str dir,
                Arg.err (GoError.wrapf "%q: %w" [filepath.Join [dir, e.Name]] err)]] ∧
          calls (main env conf) = [] ∧ dirsListed (main env conf) = [dir]) ∧
      (crashes env dir e →
        (readTorrentFiles env dir t).2.1 = some Failure.panic ∧
        (readTorrentFiles env dir t).2.2 =
          t ++ [Event.readDir dir] ++ readEvents dir (pre ++ [e]) ∧
        filesRead (readTorrentFiles env dir t).2.2 = filesRead t ++
          ((pre ++ [e]).filter (fun x => !x.IsDir)).map (fun x => filepath.Join [dir, x.Name]) ∧
        ∀ conf : Conf, conf.confTorrentsPath = dir → env.New = none →
          main env conf = [Event.readDir dir] ++ readEvents dir (pre ++ [e]) ++ [Event.panic] ∧
          calls (main env conf) = [] ∧ dirsListed (main env conf) = [dir])) ∧
    ((∃ err, (readTorrentFiles env dir t).2.1 = some (Failure.error err)) ↔
      ∃ pre e post err, entries = pre ++ e :: post ∧
        (∀ x ∈ pre, (∀ err1, ¬ broken env dir x err1) ∧ ¬ crashes env dir x) ∧
        broken env dir e err) := by
  have hrt := readTorrentFiles_listed env dir entries t hlist
  have hstop : ∀ pre e post f, entries = pre ++ e :: post →
      (∀ x ∈ pre, (∀ err1, ¬ broken env dir x err1) ∧ ¬ crashes env dir x) →
      loadEntry env dir e = Except.error f →
      ∀ t1 : Trace, readTorrentFiles env dir t1 =
        (indexed env dir [] pre, some (passOn (filepath.Join [dir, e.Name]) f),
          t1 ++ [Event.readDir dir] ++ readEvents dir (pre ++ [e])) := by
    intro pre e post f hsplit hpre he t1
    exact readTorrentFiles_stops env dir pre e post f t1 (by rw [← hsplit]; exact hlist)
      (fun x hx => loaded_of_not_broken env dir x (hpre x hx).1 (hpre x hx).2) he
  have hfiles : ∀ pre e, filesRead (t ++ [Event.readDir dir] ++ readEvents dir (pre ++ [e])) =
      filesRead t ++ ((pre ++ [e]).filter (fun x => !x.IsDir)).map
        (fun x => filepath.Join [dir, x.Name]) := by
    intro pre e
    simp only [filesRead_append, (calls_readEvents dir (pre ++ [e])).2]
    simp [filesRead]
  refine ⟨?_, fun e hd => ⟨fun err hb => by simp [broken, hd] at hb,
    fun hc => by simp [crashes, hd] at hc⟩, ?_, ?_⟩
  · rw [hrt]
    simp only [ne_eq]
    rw [readEntries_none_iff]
    constructor
    · intro h
      obtain ⟨pre, e, post, f, h1, _, h3⟩ := first_broken env dir entries h
      refine ⟨e, by simp [h1], ?_⟩
      cases f with
      | error err => exact Or.inl ⟨err, loadEntry_broken.mp h3⟩
      | panic => exact Or.inr (loadEntry_crashes.mp h3)
    · rintro ⟨e, he, hbad⟩ hall
      have hfine := fine_of_loaded env dir e (hall e he)
      rcases hbad with ⟨err, hb⟩ | hc
      · exact hfine.1 err hb
      · exact hfine.2 hc
  · intro pre e post hsplit hpre
    constructor
    · intro err hb
      have hrun := hstop pre e post (Failure.error err) hsplit hpre (loadEntry_broken.mpr hb)
      refine ⟨by rw [hrun t]; rfl, by rw [hrun t], by rw [hrun t]; exact hfiles pre e, ?_⟩
      intro conf hconf hnew
      have hmain : main env conf = [Event.readDir dir] ++ readEvents dir (pre ++ [e]) ++
          [Event.fatalf "read torrent files of %q: %v"
            [Arg.str dir,
              Arg.err (GoError.wrapf "%q: %w" [filepath.Join [dir, e.Name]] err)]] := by
        simp only [main, hnew, hconf, hrun [], passOn]
        simp
      refine ⟨hmain, ?_, ?_⟩
      · rw [hmain]
        simp [calls_append, (calls_readEvents dir (pre ++ [e])).1, calls]
      · rw [hmain]
        simp [dirsListed_append, dirsListed_readEvents, dirsListed]
    · intro hc
      have hrun := hstop pre e post Failure.panic hsplit hpre (loadEntry_crashes.mpr hc)
      refine ⟨by rw [hrun t]; rfl, by rw [hrun t], by rw [hrun t]; exact hfiles pre e, ?_⟩
      intro conf hconf hnew
      have hmain : main env conf =
          [Event.readDir dir] ++ readEvents dir (pre ++ [e]) ++ [Event.panic] := by
        simp only [main, hnew, hconf, hrun [], passOn]
        simp
      refine ⟨hmain, ?_, ?_⟩
      · rw [hmain]
        simp [calls_append, (calls_readEvents dir (pre ++ [e])).1, calls]
      · rw [hmain]
        simp [dirsListed_append, dirsListed_readEvents, dirsListed]
  · constructor
    · rintro ⟨err, herr⟩
      have hnot : ¬ ∀ e ∈ entries, ∃ r, loadEntry env dir e = Except.ok r := by
        intro hall
        have hnone := (readEntries_none_iff env dir entries [] (t ++ [Event.readDir dir])).mpr hall
        rw [hrt] at herr
        simp only at herr
        rw [hnone] at herr
        cases herr
      obtain ⟨pre, e, post, f, h1, h2, h3⟩ := first_broken env dir entries hnot
      have hpre : ∀ x ∈ pre, (∀ err1, ¬ broken env dir x err1) ∧ ¬ crashes env dir x :=
        fun x hx => fine_of_loaded env dir x (h2 x hx)
      have hrun := hstop pre e post f h1 hpre h3 t
      rw [hrun] at herr
      cases f with
      | error err1 => exact ⟨pre, e, post, err1, h1, hpre, loadEntry_broken.mp h3⟩
      | panic => simp [passOn] at herr
    · rintro ⟨pre, e, post, err, hsplit, hpre, hb⟩
      have hrun := hstop pre e post (Failure.error err) hsplit hpre (loadEntry_broken.mpr hb) t
      exact ⟨_, by rw [hrun]; rfl⟩

/-- C5, in a world whose torrents directory lists a directory, a well-formed
file, a malformed file and another well-formed file: the error names the
malformed file, the file after it is not read, and `main` ends with
`log.Fatalf` without processing the mapping. -/
theorem readTorrentFiles_fail_fast_witness :
    (readTorrentFiles brokenEnv "torrents" []).2.1 =
      some (Failure.error (GoError.wrapf "%q: %w" ["torrents/Abad.torrent"]
        (GoError.wrapf "unmarshal torrent: %w" [] bencode.decodeError))) ∧
    main brokenEnv scenarioConf =
      [Event.readDir "torrents", Event.readFile "torrents/A.torrent",
        Event.readFile "torrents/Abad.torrent",
        Event.fatalf "read torrent files of %q: %v" [Arg.str "torrents",
          Arg.err (GoError.wrapf "%q: %w" ["torrents/Abad.torrent"]
            (GoError.wrapf "unmarshal torrent: %w" [] bencode.decodeError))]] := by
  have h := ((readTorrentFiles_fail_fast brokenEnv "torrents"
    [⟨"0sub", true⟩, ⟨"A.torrent", false⟩, ⟨"Abad.torrent", false⟩, ⟨"B.torrent", false⟩] []
    rfl).2.2.1 [⟨"0sub", true⟩, ⟨"A.torrent", false⟩] ⟨"Abad.torrent", false⟩
    [⟨"B.torrent", false⟩] rfl
    (by
      intro x hx
      apply fine_of_loaded
      simp only [List.mem_cons, List.mem_singleton, List.not_mem_nil, or_false] at hx
      rcases hx with rfl | rfl
      · exact ⟨none, by decide⟩
      · exact ⟨some ("Movie1", bencode.bytes "d4:infod4:name6:Movie1ee"), by decide⟩)).1
    (GoError.wrapf "unmarshal torrent: %w" [] bencode.decodeError)
    (loadEntry_broken.mp (by decide))
  exact ⟨h.1, (h.2.2.2 scenarioConf rfl rfl).1⟩

/-- C5 as stated fails: `Atyped.torrent` is a file, not a directory, that does
not decode (its `name` is an integer and `bencode.Unmarshal` panics on it), yet
`readTorrentFiles` returns no error naming it: the panic passes through, and
`main` ends by the panic, with no `log.Fatalf`. -/
theorem readTorrentFiles_panics :
    panicEnv.ReadDir "torrents" =
      Except.ok [⟨"A.torrent", false⟩, ⟨"Atyped.torrent", false⟩, ⟨"B.torrent", false⟩] ∧
    panicEnv.ReadFile "torrents/Atyped.torrent" =
      Except.ok (bencode.bytes "d4:infod4:namei5eee") ∧
    panicEnv.Unmarshal (bencode.bytes "d4:infod4:namei5eee") = Except.error Failure.panic ∧
    readTorrentFiles panicEnv "torrents" [] =
      ([("Movie1", torrentFile "Movie1")], some Failure.panic,
        [Event.readDir "torrents", Event.readFile "torrents/A.torrent",
          Event.readFile "torrents/Atyped.torrent"]) ∧
    main panicEnv scenarioConf =
      [Event.readDir "torrents", Event.readFile "torrents/A.torrent",
        Event.readFile "torrents/Atyped.torrent", Event.panic] := by
  decide

/-- C8, as the code has it: every key of the index returned by a successful
`readTorrentFiles` is the `info.name` declared by a listed file that can be
read and decoded; so the keys are non-empty when no file decodes to an empty
`info.name`. -/
theorem readTorrentFiles_keys (env : Env) (dir : String) (t : Trace)
    (hok : (readTorrentFiles env dir t).2.1 = none) :
    (∀ k ∈ (readTorrentFiles env dir t).1.map Prod.fst,
      ∃ entries, env.ReadDir dir = Except.ok entries ∧
        ∃ e ∈ entries, ∃ file, declares env dir e k file) ∧
    ((∀ file inf, env.Unmarshal file = Except.ok inf → inf.Info.Name ≠ "") →
      ∀ k ∈ (readTorrentFiles env dir t).1.map Prod.fst, k ≠ "") := by
  have hkeys : ∀ k ∈ (readTorrentFiles env dir t).1.map Prod.fst,
      ∃ entries, env.ReadDir dir = Except.ok entries ∧
        ∃ e ∈ entries, ∃ file, declares env dir e k file := by
    intro k hk
    cases hlist : env.ReadDir dir with
    | error err => simp [readTorrentFiles, iterDir, hlist] at hok
    | ok entries =>
      have hrt := readTorrentFiles_listed env dir entries t hlist
      have hnone : (iterEntries dir (readTorrentFilesCb env) entries
          (([] : torrents), t ++ [Event.readDir dir])).1 = none := by
        rw [hrt] at hok
        exact hok
      have hall := (readEntries_none_iff env dir entries [] (t ++ [Event.readDir dir])).mp hnone
      rw [readEntries_ok env dir entries [] (t ++ [Event.readDir dir]) hall] at hrt
      rw [hrt] at hk
      rcases mem_keys_indexed env dir [] entries k hk with h1 | ⟨e, he, file, hl⟩
      · simp at h1
      · exact ⟨entries, rfl, e, he, file, loadEntry_declares.mp hl⟩
  refine ⟨hkeys, ?_⟩
  intro hnonempty k hk
  obtain ⟨entries, _, e, _, file, _, _, inf, hinf, hname⟩ := hkeys k hk
  rw [← hname]
  exact hnonempty file inf hinf

/-- C8, in the world of the scenario: the run succeeds and the key `Movie1` of
the index is the name a listed file declares. -/
theorem readTorrentFiles_keys_witness :
    (readTorrentFiles scenarioEnv "torrents" []).2.1 = none ∧
    ∃ entries, scenarioEnv.ReadDir "torrents" = Except.ok entries ∧
      ∃ e ∈ entries, ∃ file, declares scenarioEnv "torrents" e "Movie1" file :=
  ⟨by decide, (readTorrentFiles_keys scenarioEnv "torrents" [] (by decide)).1 "Movie1"
    (by decide)⟩

/-- C8 as stated fails: the file `E.torrent` decodes and declares the empty
`info.name`; `readTorrentFiles` succeeds and the index it returns has the empty
string as a key. -/
theorem readTorrentFiles_empty_key :
    (emptyNameEnv.Unmarshal (bencode.bytes "d4:infod4:name0:ee")).toOption.map
      (fun inf => inf.Info.Name) = some "" ∧
    readTorrentFiles emptyNameEnv "torrents" [] =
      ([("", bencode.bytes "d4:infod4:name0:ee")], none,
        [Event.readDir "torrents", Event.readFile "torrents/E.torrent"]) ∧
    "" ∈ (readTorrentFiles emptyNameEnv "torrents" []).1.map Prod.fst := by
  decide

end TransmissionRestore
